import Mathlib

/-!
# Double Linked Ring (`DLR.h`)

A shallow embedding of the class template `DLR<Key, Info>`.

* Nodes live in a free store `Mem`; a pointer is an address (`Nat`), `0` is `nullptr`.
* A `DLR` object is its single field `any`; every method takes the store and the
  value of `any`, and returns the new store and the new value of `any`.
* Dereferencing `nullptr` or a deleted node, and deleting a node twice, is undefined
  behaviour: the embedded method returns `none`.
* Every `do ... while` loop takes a fuel argument; running out of fuel is `none` as well.
* `unsigned int` counters wrap at `2 ^ 32`; an `int` converted to `unsigned int` is
  reduced modulo `2 ^ 32`; incrementing an `int` past `2 ^ 31 - 1` is undefined.
* A member function whose body is ill formed cannot be instantiated, so no call of it has
  a result: the embedded method returns `none` on every input.
-/

namespace DLR

/-! ## Definitions -/

/-- Node of the ring (`struct Node`): a key, an info and the two links. -/
structure Node (K I : Type) where
  key : K
  info : I
  next : Nat
  previous : Nat
deriving DecidableEq

/-- Free store: the node at address `a + 1` is cell `a`; a deleted cell holds `none`. -/
structure Mem (K I : Type) where
  cells : List (Option (Node K I))
deriving DecidableEq

/-- Read the node at address `p`; `none` for `nullptr`, a deleted or a never allocated node. -/
def Mem.get {K I : Type} (m : Mem K I) : Nat → Option (Node K I)
  | 0 => none
  | a + 1 => (m.cells[a]?).join

/-- Overwrite the cell at address `p`; there is no cell at `nullptr`. -/
def Mem.put {K I : Type} (m : Mem K I) : Nat → Option (Node K I) → Mem K I
  | 0, _ => m
  | a + 1, c => ⟨m.cells.set a c⟩

/-- Address that the next `new Node` returns. -/
def Mem.fresh {K I : Type} (m : Mem K I) : Nat :=
  m.cells.length + 1

/-- Allocation `new Node(aKey, aInfo)`: both links start as `nullptr`. -/
def Mem.alloc {K I : Type} (m : Mem K I) (aKey : K) (aInfo : I) : Mem K I × Nat :=
  (⟨m.cells ++ [some ⟨aKey, aInfo, 0, 0⟩]⟩, m.fresh)

/-- Deallocation `delete p` of a live node; of anything else it is undefined. -/
def Mem.free {K I : Type} (m : Mem K I) (p : Nat) : Option (Mem K I) :=
  match m.get p with
  | none => none
  | some _ => some (m.put p none)

/-- Assignment `p->next = q`. -/
def Mem.setNext {K I : Type} (m : Mem K I) (p q : Nat) : Option (Mem K I) :=
  match m.get p with
  | none => none
  | some nd => some (m.put p (some { nd with next := q }))

/-- Assignment `p->previous = q`. -/
def Mem.setPrevious {K I : Type} (m : Mem K I) (p q : Nat) : Option (Mem K I) :=
  match m.get p with
  | none => none
  | some nd => some (m.put p (some { nd with previous := q }))

/-- The empty free store. -/
def Mem.empty (K I : Type) : Mem K I := ⟨[]⟩

/-- Conversion of an `int` to `unsigned int`. -/
def toUnsigned (x : Int) : Nat := (x % 4294967296).toNat

/-- Loop of `length()`. -/
def lengthLoop {K I : Type} (m : Mem K I) (any : Nat) : Nat → Nat → Nat → Option Nat
  | 0, _, _ => none
  | fuel + 1, travel, count =>
    match m.get travel with
    | none => none
    | some nd =>
      if nd.next ≠ any then lengthLoop m any fuel nd.next ((count + 1) % 4294967296)
      else some ((count + 1) % 4294967296)

/-- Method `length()`. -/
def length {K I : Type} (fuel : Nat) (m : Mem K I) (any : Nat) : Option Nat :=
  if any = 0 then some 0 else lengthLoop m any fuel any 0

/-- Method `isEmpty()`. -/
def isEmpty (any : Nat) : Bool := decide (any = 0)

/-- Loop of `howMany(aKey)`. -/
def howManyLoop {K I : Type} [DecidableEq K] (m : Mem K I) (any : Nat) (aKey : K) :
    Nat → Nat → Nat → Option Nat
  | 0, _, _ => none
  | fuel + 1, travel, count =>
    match m.get travel with
    | none => none
    | some nd =>
      if nd.next ≠ any then
        howManyLoop m any aKey fuel nd.next
          (if nd.key = aKey then (count + 1) % 4294967296 else count)
      else some (if nd.key = aKey then (count + 1) % 4294967296 else count)

/-- Method `howMany(aKey)`. -/
def howMany {K I : Type} [DecidableEq K] (fuel : Nat) (m : Mem K I) (any : Nat) (aKey : K) :
    Option Nat :=
  if any = 0 then some 0 else howManyLoop m any aKey fuel any 0

/-- Loop of `exists(key)`. -/
def existsLoop {K I : Type} [DecidableEq K] (m : Mem K I) (any : Nat) (key : K) :
    Nat → Nat → Option Bool
  | 0, _ => none
  | fuel + 1, travel =>
    match m.get travel with
    | none => none
    | some nd =>
      if nd.key = key then some true
      else if nd.next ≠ any then existsLoop m any key fuel nd.next
      else some false

/-- Method `exists(key)` (the name `exists` is reserved in Lean). -/
def existsKey {K I : Type} [DecidableEq K] (fuel : Nat) (m : Mem K I) (any : Nat) (key : K) :
    Option Bool :=
  if any = 0 then some false else existsLoop m any key fuel any

/-- Loop of `print()`; the result is the list of pairs written to the output, in order. -/
def printLoop {K I : Type} (m : Mem K I) (any : Nat) : Nat → Nat → Option (List (K × I))
  | 0, _ => none
  | fuel + 1, travel =>
    match m.get travel with
    | none => none
    | some nd =>
      if nd.next ≠ any then (printLoop m any fuel nd.next).map (fun out => (nd.key, nd.info) :: out)
      else some [(nd.key, nd.info)]

/-- Method `print()`: the pairs it writes, from `any` once around; nothing for the empty ring
(the notice "Ring is empty." is not a pair). -/
def print {K I : Type} (fuel : Nat) (m : Mem K I) (any : Nat) : Option (List (K × I)) :=
  if any = 0 then some [] else printLoop m any fuel any

/-- Loop of `find(aKey, occurrence)`; `i` is the `int` counter of matches seen. -/
def findLoop {K I : Type} [DecidableEq K] (m : Mem K I) (any : Nat) (aKey : K) (occurrence : Int) :
    Nat → Nat → Int → Option Nat
  | 0, _, _ => none
  | fuel + 1, travel, i =>
    match m.get travel with
    | none => none
    | some nd =>
      if nd.key = aKey then
        if 2147483647 < i + 1 then none
        else if i + 1 = occurrence then some travel
        else if nd.next ≠ any then findLoop m any aKey occurrence fuel nd.next (i + 1)
        else some 0
      else if nd.next ≠ any then findLoop m any aKey occurrence fuel nd.next i
      else some 0

/-- Method `find(aKey, occurrence)`; the result is the `travel` pointer of the returned
Iterator, `0` for `Iterator()`. -/
def find {K I : Type} [DecidableEq K] (fuel : Nat) (m : Mem K I) (any : Nat) (aKey : K)
    (occurrence : Int) : Option Nat :=
  if any = 0 then some 0 else findLoop m any aKey occurrence fuel any 0

/-- Method `pushBack(newKey, newInfo)`. -/
def pushBack {K I : Type} (m : Mem K I) (any : Nat) (newKey : K) (newInfo : I) :
    Option (Mem K I × Nat) :=
  let newNode := (m.alloc newKey newInfo).2
  let m0 := (m.alloc newKey newInfo).1
  if any = 0 then do
    let m1 ← m0.setNext newNode newNode
    let m2 ← m1.setPrevious newNode newNode
    some (m2, newNode)
  else do
    let m1 ← m0.setNext newNode any
    let a1 ← m1.get any
    let m2 ← m1.setPrevious newNode a1.previous
    let a2 ← m2.get any
    let m3 ← m2.setNext a2.previous newNode
    let m4 ← m3.setPrevious any newNode
    some (m4, any)

/-- Method `insertAfter(const Iterator &location, newKey, newInfo)`; `location` is the
`travel` pointer of the Iterator. -/
def insertAfterIt {K I : Type} (m : Mem K I) (location : Nat) (newKey : K) (newInfo : I) :
    Option (Mem K I × Bool) :=
  if location = 0 then some (m, false)
  else do
    let insert := (m.alloc newKey newInfo).2
    let m0 := (m.alloc newKey newInfo).1
    let m1 ← m0.setPrevious insert location
    let l1 ← m1.get location
    let m2 ← m1.setNext insert l1.next
    let l2 ← m2.get location
    let m3 ← m2.setPrevious l2.next insert
    let m4 ← m3.setNext location insert
    some (m4, true)

/-- Method `insertBefore(const Iterator &location, newKey, newInfo)`. -/
def insertBeforeIt {K I : Type} (m : Mem K I) (location : Nat) (newKey : K) (newInfo : I) :
    Option (Mem K I × Bool) :=
  if location = 0 then some (m, false)
  else do
    let insert := (m.alloc newKey newInfo).2
    let m0 := (m.alloc newKey newInfo).1
    let m1 ← m0.setNext insert location
    let l1 ← m1.get location
    let m2 ← m1.setPrevious insert l1.previous
    let l2 ← m2.get location
    let m3 ← m2.setNext l2.previous insert
    let m4 ← m3.setPrevious location insert
    some (m4, true)

/-- Argument of a call to an overloaded member, tagged with its static type. -/
inductive Arg (K I : Type) where
  | key : K → Arg K I
  | info : I → Arg K I
  | iterator : Nat → Arg K I

/-- Overload resolution of a three-argument call `insertAfter(x, y, z)`. The candidates are
`insertAfter(const Iterator&, const Key&, const Info&)` and
`insertAfter(const Key&, const Key&, const Info&, int = 1)`; both take a `const Info&` third,
and an Iterator converts to neither a Key nor an Info, so only a call whose arguments are
an Iterator, a Key and an Info, in this order, has a viable candidate. `none`: ill-formed. -/
def callInsertAfter {K I : Type} (m : Mem K I) : Arg K I → Arg K I → Arg K I →
    Option (Mem K I × Bool)
  | Arg.iterator location, Arg.key newKey, Arg.info newInfo =>
    insertAfterIt m location newKey newInfo
  | _, _, _ => none

/-- Overload resolution of a three-argument call `insertBefore(x, y, z)`, as for
`insertAfter`. -/
def callInsertBefore {K I : Type} (m : Mem K I) : Arg K I → Arg K I → Arg K I →
    Option (Mem K I × Bool)
  | Arg.iterator location, Arg.key newKey, Arg.info newInfo =>
    insertBeforeIt m location newKey newInfo
  | _, _, _ => none

/-- Static type of an argument of a call: a Key, an Info or an Iterator. -/
inductive ArgType where
  | key : ArgType
  | info : ArgType
  | iterator : ArgType

/-- Whether a three-argument call `insertAfter(x, y, z)` or `insertBefore(x, y, z)` whose
arguments have these static types has a viable overload (the candidates are those of
`callInsertAfter`): only for an Iterator, a Key and an Info, in this order. -/
def viableInsertCall : ArgType → ArgType → ArgType → Bool
  | ArgType.iterator, ArgType.key, ArgType.info => true
  | _, _, _ => false

/-- Method `insertAfter(key, newKey, newInfo, occurrence)`. Its last statement is
`return insertAfter(newKey, newInfo, iterator);`, a call with a Key, an Info and an
Iterator. That call has no viable overload, so the method is ill formed as a whole: it
cannot be instantiated and no call of it has a result, on the guard paths either. -/
def insertAfter {K I : Type} [DecidableEq K] (fuel : Nat) (m : Mem K I) (any : Nat)
    (key newKey : K) (newInfo : I) (occurrence : Int) : Option (Mem K I × Bool) :=
  if viableInsertCall ArgType.key ArgType.info ArgType.iterator then
    if any = 0 then some (m, false)
    else do
      let h0 ← howMany fuel m any key
      if h0 = 0 then some (m, false)
      else do
        let h1 ← howMany fuel m any key
        if h1 < toUnsigned occurrence then some (m, false)
        else do
          let iterator ← find fuel m any key occurrence
          callInsertAfter m (Arg.key newKey) (Arg.info newInfo) (Arg.iterator iterator)
  else none

/-- Method `insertBefore(key, newKey, newInfo, occurrence)`. Its last statement is
`return insertBefore(newKey, newInfo, iterator);`, a call with a Key, an Info and an
Iterator. That call has no viable overload, so the method is ill formed as a whole: it
cannot be instantiated and no call of it has a result, on the guard paths either. -/
def insertBefore {K I : Type} [DecidableEq K] (fuel : Nat) (m : Mem K I) (any : Nat)
    (key newKey : K) (newInfo : I) (occurrence : Int) : Option (Mem K I × Bool) :=
  if viableInsertCall ArgType.key ArgType.info ArgType.iterator then
    if any = 0 then some (m, false)
    else do
      let h0 ← howMany fuel m any key
      if h0 = 0 then some (m, false)
      else do
        let h1 ← howMany fuel m any key
        if h1 < toUnsigned occurrence then some (m, false)
        else do
          let iterator ← find fuel m any key occurrence
          callInsertBefore m (Arg.key newKey) (Arg.info newInfo) (Arg.iterator iterator)
  else none

/-- Method `remove(const Iterator &location)`. -/
def removeIt {K I : Type} (m : Mem K I) (any : Nat) (location : Nat) : Option (Mem K I × Nat) :=
  if location = 0 then some (m, any)
  else do
    let a ← m.get any
    if any = a.next then do
      let m1 ← m.free any
      some (m1, 0)
    else do
      let l0 ← m.get location
      let m1 ← m.setPrevious l0.next l0.previous
      let l1 ← m1.get location
      let m2 ← m1.setNext l1.previous l1.next
      let l2 ← m2.get location
      let m3 ← m2.free location
      some (m3, l2.next)

/-- Method `remove(key, occurrence)`. -/
def remove {K I : Type} [DecidableEq K] (fuel : Nat) (m : Mem K I) (any : Nat) (key : K)
    (occurrence : Int) : Option (Mem K I × Nat) :=
  if any = 0 then some (m, any)
  else do
    let h0 ← howMany fuel m any key
    if h0 = 0 then some (m, any)
    else do
      let h1 ← howMany fuel m any key
      if h1 < toUnsigned occurrence then some (m, any)
      else do
        let iterator ← find fuel m any key occurrence
        removeIt m any iterator

/-- Loop of `clear()`. -/
def clearLoop {K I : Type} (any : Nat) : Nat → Mem K I → Nat → Option (Mem K I)
  | 0, _, _ => none
  | fuel + 1, m, travel =>
    match m.get travel with
    | none => none
    | some t =>
      match m.free travel with
      | none => none
      | some m1 => if t.next ≠ any then clearLoop any fuel m1 t.next else some m1

/-- Method `clear()`. -/
def clear {K I : Type} (fuel : Nat) (m : Mem K I) (any : Nat) : Option (Mem K I × Nat) :=
  if any = 0 then some (m, any)
  else do
    let a ← m.get any
    let m1 ← clearLoop any fuel m a.next
    let m2 ← m1.free any
    some (m2, 0)

/-- Loop of `operator=`: `src` is `aDLR.any`, `any` is the field of the assigned ring. -/
def assignLoop {K I : Type} (src : Nat) : Nat → Mem K I → Nat → Nat → Option (Mem K I × Nat)
  | 0, _, _, _ => none
  | fuel + 1, m, any, travel =>
    match m.get travel with
    | none => none
    | some t =>
      match pushBack m any t.key t.info with
      | none => none
      | some (m1, any1) =>
        match m1.get travel with
        | none => none
        | some t1 =>
          if t1.next ≠ src then assignLoop src fuel m1 any1 t1.next else some (m1, any1)

/-- Assignment `operator=`. `this` and `that` are the addresses of the two `DLR` objects
(the test `this == &aDLR`), `any` and `aAny` their fields. -/
def assign {K I : Type} (fuel : Nat) (m : Mem K I) (this that : Nat) (any aAny : Nat) :
    Option (Mem K I × Nat) :=
  if this = that then some (m, any)
  else do
    let r ← clear fuel m any
    if aAny = 0 then some r
    else assignLoop aAny fuel r.1 r.2 aAny

/-- Copy constructor `DLR(const DLR&)`: `any = nullptr; *this = aDLR;`. -/
def copy {K I : Type} (fuel : Nat) (m : Mem K I) (this that : Nat) (aAny : Nat) :
    Option (Mem K I × Nat) :=
  assign fuel m this that 0 aAny

/-- Loop of `operator==`. -/
def eqLoop {K I : Type} [DecidableEq K] [DecidableEq I] (m : Mem K I) (any aAny : Nat) :
    Nat → Nat → Nat → Option Bool
  | 0, _, _ => none
  | fuel + 1, travel1, travel2 =>
    match m.get travel1, m.get travel2 with
    | some n1, some n2 =>
      if n1.key ≠ n2.key ∨ n2.info ≠ n2.info then some false
      else if n1.next ≠ any ∧ n2.next ≠ aAny then eqLoop m any aAny fuel n1.next n2.next
      else some true
    | _, _ => none

/-- Comparison `operator==`. -/
def eq {K I : Type} [DecidableEq K] [DecidableEq I] (fuel : Nat) (m : Mem K I) (any aAny : Nat) :
    Option Bool := do
  let n1 ← length fuel m any
  let n2 ← length fuel m aAny
  if n1 ≠ n2 then some false
  else if any = 0 then some true
  else eqLoop m any aAny fuel any aAny

/-- Comparison `operator!=`. -/
def ne {K I : Type} [DecidableEq K] [DecidableEq I] (fuel : Nat) (m : Mem K I) (any aAny : Nat) :
    Option Bool :=
  (eq fuel m any aAny).map (fun b => !b)

/-! ### Iterator -/

/-- Whether `return *this;` is well formed in a member that returns `Iterator&`: in a `const`
member `*this` is a `const Iterator`, which does not bind to `Iterator&`. -/
def returnsThisAsRef (constMember : Bool) : Bool := !constMember

/-- Prefix `operator++` of an Iterator with pointer `travel`:
`Iterator &operator++() const { travel = travel -> next; return *this; }`. It is a `const`
member, so its `return *this;` is ill formed: the operator cannot be instantiated and no
call of it has a result. -/
def Iterator.inc {K I : Type} (m : Mem K I) (travel : Nat) : Option Nat :=
  if returnsThisAsRef true then (m.get travel).map Node.next else none

/-- Prefix `operator--`:
`Iterator &operator--() const { travel = travel -> previous; return *this; }`, ill formed as
prefix `operator++` is. -/
def Iterator.dec {K I : Type} (m : Mem K I) (travel : Nat) : Option Nat :=
  if returnsThisAsRef true then (m.get travel).map Node.previous else none

/-- Postfix `operator++(int)`, which returns the copy `temp` by value: the returned copy and
the new pointer of the Iterator. -/
def Iterator.postInc {K I : Type} (m : Mem K I) (travel : Nat) : Option (Nat × Nat) :=
  (m.get travel).map (fun nd => (travel, nd.next))

/-- Postfix `operator--(int)`, which returns the copy `temp` by value: the returned copy and
the new pointer of the Iterator. -/
def Iterator.postDec {K I : Type} (m : Mem K I) (travel : Nat) : Option (Nat × Nat) :=
  (m.get travel).map (fun nd => (travel, nd.previous))

/-- Body of the loop of `operator+`, run `k` times: `temp.travel = temp.travel -> next`. -/
def Iterator.plusLoop {K I : Type} (m : Mem K I) : Nat → Nat → Option Nat
  | 0, travel => some travel
  | k + 1, travel =>
    match m.get travel with
    | none => none
    | some nd => Iterator.plusLoop m k nd.next

/-- Body of the loop of `operator-`, run `k` times: `temp.travel = temp.travel -> previous`. -/
def Iterator.minusLoop {K I : Type} (m : Mem K I) : Nat → Nat → Option Nat
  | 0, travel => some travel
  | k + 1, travel =>
    match m.get travel with
    | none => none
    | some nd => Iterator.minusLoop m k nd.previous

/-- Operator `operator+ (int moveBy)`: the loop `for(int i = 0; i < moveBy; i++)` runs its
body `moveBy` times, and not at all for `moveBy <= 0`; the result is the pointer of `temp`. -/
def Iterator.plus {K I : Type} (m : Mem K I) (travel : Nat) (moveBy : Int) : Option Nat :=
  Iterator.plusLoop m moveBy.toNat travel

/-- Operator `operator- (int moveBy)`. -/
def Iterator.minus {K I : Type} (m : Mem K I) (travel : Nat) (moveBy : Int) : Option Nat :=
  Iterator.minusLoop m moveBy.toNat travel

/-- Conversion of an `unsigned int` to `int`, as for the argument of `it + length()`. -/
def toSigned (u : Nat) : Int :=
  if u % 4294967296 < 2147483648 then (u % 4294967296 : Nat) else (u % 4294967296 : Nat) - 4294967296

/-! ### Well-formed rings -/

/-- Field `p->next` of a live node. -/
def Mem.nextOf {K I : Type} (m : Mem K I) (p : Nat) : Option Nat :=
  (m.get p).map Node.next

/-- Field `p->previous` of a live node. -/
def Mem.previousOf {K I : Type} (m : Mem K I) (p : Nat) : Option Nat :=
  (m.get p).map Node.previous

/-- Key/info pair of a live node (what `*it` gives for an Iterator on `p`). -/
def Mem.content {K I : Type} (m : Mem K I) (p : Nat) : Option (K × I) :=
  (m.get p).map (fun nd => (nd.key, nd.info))

/-- Nodes `p` and `q` are adjacent: `p->next == q` and `q->previous == p`. -/
def Link {K I : Type} (m : Mem K I) (p q : Nat) : Prop :=
  m.nextOf p = some q ∧ m.previousOf q = some p

instance instDecidableLink {K I : Type} (m : Mem K I) : DecidableRel (Link m) :=
  fun _ _ => instDecidableAnd

/-- Well-formed ring: `ps` lists the addresses of the nodes once around, starting at `any`
(`ps = []` and `any = nullptr` for the empty ring); the nodes are distinct, each is linked
to the one after it, and the last one is linked back to the first. -/
def Ring {K I : Type} (m : Mem K I) (any : Nat) (ps : List Nat) : Prop :=
  any = ps.headD 0 ∧ ps.Nodup ∧ List.Chain' (Link m) (ps ++ ps.take 1)

/-- Decision procedure for `List.Chain` that evaluates by plain recursion. -/
def decideChain {α : Type} (R : α → α → Prop) [DecidableRel R] :
    (a : α) → (l : List α) → Decidable (List.Chain R a l)
  | _, [] => isTrue List.Chain.nil
  | a, b :: l =>
    match (inferInstance : Decidable (R a b)), decideChain R b l with
    | isTrue h, isTrue t => isTrue (List.Chain.cons h t)
    | isFalse h, _ => isFalse (fun c => h (List.chain_cons.1 c).1)
    | _, isFalse t => isFalse (fun c => t (List.chain_cons.1 c).2)

/-- Decision procedure for `List.Chain'` that evaluates by plain recursion. -/
def decideChain' {α : Type} (R : α → α → Prop) [DecidableRel R] :
    (l : List α) → Decidable (List.Chain' R l)
  | [] => isTrue trivial
  | a :: l => decideChain R a l

instance instDecidableRing {K I : Type} (m : Mem K I) (any : Nat) (ps : List Nat) :
    Decidable (Ring m any ps) :=
  @instDecidableAnd _ _ _ (@instDecidableAnd _ _ _ (decideChain' (Link m) _))

/-- Key/info pairs held by the nodes `ps`, in this order. -/
def pairs {K I : Type} (m : Mem K I) (ps : List Nat) : List (K × I) :=
  ps.filterMap m.content

/-- Ring built from the empty store by `pushBack` of every pair of the list, in order. -/
def build {K I : Type} : List (K × I) → Mem K I × Nat → Option (Mem K I × Nat)
  | [], s => some s
  | (k, i) :: r, s => (pushBack s.1 s.2 k i).bind (build r)

/-- The store and the anchor of the ring built by `pushBack` of every pair of the list. -/
def ringOf {K I : Type} (L : List (K × I)) : Mem K I × Nat :=
  (build L (Mem.empty K I, 0)).getD (Mem.empty K I, 0)

/-! ### Example rings -/

/-- Store of the ring `[(a,1)]`: its node at the address 1, anchor 1. -/
def ringA : Mem Char Nat := (ringOf [('a', 1)]).1

/-- Store of the ring `[(a,1),(b,2)]`: nodes at the addresses 1, 2, anchor 1. -/
def ringAB : Mem Char Nat := (ringOf [('a', 1), ('b', 2)]).1

/-- Store of the ring `[(a,1),(b,2),(c,3)]`: nodes at the addresses 1, 2, 3, anchor 1. -/
def ringABC : Mem Char Nat := (ringOf [('a', 1), ('b', 2), ('c', 3)]).1

/-- Store of the ring `[(a,1),(b,2),(a,3),(a,4)]`: nodes at the addresses 1 to 4, anchor 1. -/
def ringABAA : Mem Char Nat := (ringOf [('a', 1), ('b', 2), ('a', 3), ('a', 4)]).1

/-- Store of two rings: `[(a,1)]` with its node at address 1 and a second ring of one node
holding `kv` at address 2. -/
def twoRings (kv : Char × Nat) : Mem Char Nat :=
  ((pushBack (ringOf [('a', 1)]).1 0 kv.1 kv.2).getD (Mem.empty Char Nat, 0)).1

/-! ## Theorems -/

/-! ## The free store -/

section Store

variable {K I : Type}

theorem get_zero (m : Mem K I) : m.get 0 = none := rfl

theorem get_put (m : Mem K I) (p q : Nat) (c : Option (Node K I)) (hp : (m.get p).isSome) :
    (m.put p c).get q = if q = p then c else m.get q := by
  cases p with
  | zero => simp [Mem.get] at hp
  | succ a =>
    cases q with
    | zero => simp [Mem.get]
    | succ b =>
      have ha : a < m.cells.length := by
        by_contra hlt
        have : m.cells[a]? = none := List.getElem?_eq_none (by omega)
        simp [Mem.get, this] at hp
      by_cases hba : b = a
      · subst hba
        simp [Mem.get, Mem.put, ha]
      · have hab : ¬ a = b := fun h => hba h.symm
        simp [Mem.get, Mem.put, hba, List.getElem?_set, hab]

theorem get_fresh (m : Mem K I) : m.get m.fresh = none := by
  simp [Mem.get, Mem.fresh]

theorem get_alloc (m : Mem K I) (k : K) (i : I) (q : Nat) :
    (m.alloc k i).1.get q = if q = m.fresh then some ⟨k, i, 0, 0⟩ else m.get q := by
  cases q with
  | zero => simp [Mem.get, Mem.fresh]
  | succ b =>
    rcases Nat.lt_trichotomy b m.cells.length with h | h | h
    · have hne : ¬ b = m.cells.length := by omega
      simp [Mem.get, Mem.alloc, Mem.fresh, List.getElem?_append_left h, hne]
    · subst h
      simp [Mem.get, Mem.alloc, Mem.fresh]
    · have hne : ¬ b = m.cells.length := by omega
      have h1 : (m.cells ++ [some (⟨k, i, 0, 0⟩ : Node K I)])[b]? = none :=
        List.getElem?_eq_none (by simp; omega)
      have h2 : m.cells[b]? = none := List.getElem?_eq_none (by omega)
      simp [Mem.get, Mem.alloc, Mem.fresh, h1, h2, hne]

theorem alloc_snd (m : Mem K I) (k : K) (i : I) : (m.alloc k i).2 = m.fresh := rfl

end Store

section Fields

variable {K I : Type}

theorem nextOf_eq_some {m : Mem K I} {p q : Nat} :
    m.nextOf p = some q ↔ ∃ nd, m.get p = some nd ∧ nd.next = q := by
  simp [Mem.nextOf]

theorem previousOf_eq_some {m : Mem K I} {p q : Nat} :
    m.previousOf p = some q ↔ ∃ nd, m.get p = some nd ∧ nd.previous = q := by
  simp [Mem.previousOf]

theorem isSome_of_nextOf {m : Mem K I} {p q : Nat} (h : m.nextOf p = some q) :
    (m.get p).isSome := by
  obtain ⟨nd, hnd, _⟩ := nextOf_eq_some.1 h
  simp [hnd]

theorem isSome_of_previousOf {m : Mem K I} {p q : Nat} (h : m.previousOf p = some q) :
    (m.get p).isSome := by
  obtain ⟨nd, hnd, _⟩ := previousOf_eq_some.1 h
  simp [hnd]

theorem isSome_content (m : Mem K I) (p : Nat) : (m.content p).isSome = (m.get p).isSome := by
  simp [Mem.content]

/-- Two stores that hold the same pairs have the same live nodes. -/
theorem isSome_congr {m m' : Mem K I} (h : ∀ q, m'.content q = m.content q) (q : Nat) :
    (m'.get q).isSome = (m.get q).isSome := by
  rw [← isSome_content, ← isSome_content, h]

theorem setNext_spec (m : Mem K I) (p v : Nat) (hp : (m.get p).isSome) :
    ∃ m', m.setNext p v = some m' ∧
      (∀ q, m'.nextOf q = if q = p then some v else m.nextOf q) ∧
      (∀ q, m'.previousOf q = m.previousOf q) ∧
      (∀ q, m'.content q = m.content q) ∧
      (∀ q, q ≠ p → m'.get q = m.get q) := by
  obtain ⟨nd, hnd⟩ := Option.isSome_iff_exists.1 hp
  refine ⟨m.put p (some { nd with next := v }), by simp [Mem.setNext, hnd], ?_, ?_, ?_, ?_⟩
  all_goals intro q
  all_goals by_cases hq : q = p
  all_goals simp [Mem.nextOf, Mem.previousOf, Mem.content, get_put _ _ _ _ hp, hq, hnd]

theorem setPrevious_spec (m : Mem K I) (p v : Nat) (hp : (m.get p).isSome) :
    ∃ m', m.setPrevious p v = some m' ∧
      (∀ q, m'.nextOf q = m.nextOf q) ∧
      (∀ q, m'.previousOf q = if q = p then some v else m.previousOf q) ∧
      (∀ q, m'.content q = m.content q) ∧
      (∀ q, q ≠ p → m'.get q = m.get q) := by
  obtain ⟨nd, hnd⟩ := Option.isSome_iff_exists.1 hp
  refine ⟨m.put p (some { nd with previous := v }), by simp [Mem.setPrevious, hnd], ?_, ?_, ?_, ?_⟩
  all_goals intro q
  all_goals by_cases hq : q = p
  all_goals simp [Mem.nextOf, Mem.previousOf, Mem.content, get_put _ _ _ _ hp, hq, hnd]

theorem free_spec (m : Mem K I) (p : Nat) (hp : (m.get p).isSome) :
    ∃ m', m.free p = some m' ∧ (∀ q, m'.get q = if q = p then none else m.get q) := by
  obtain ⟨nd, hnd⟩ := Option.isSome_iff_exists.1 hp
  exact ⟨m.put p none, by simp [Mem.free, hnd], fun q => get_put _ _ _ _ hp⟩

theorem free_eq_none (m : Mem K I) (p : Nat) (hp : m.get p = none) : m.free p = none := by
  simp [Mem.free, hp]

theorem nextOf_alloc (m : Mem K I) (k : K) (i : I) (q : Nat) :
    (m.alloc k i).1.nextOf q = if q = m.fresh then some 0 else m.nextOf q := by
  by_cases hq : q = m.fresh <;> simp [Mem.nextOf, get_alloc, hq]

theorem previousOf_alloc (m : Mem K I) (k : K) (i : I) (q : Nat) :
    (m.alloc k i).1.previousOf q = if q = m.fresh then some 0 else m.previousOf q := by
  by_cases hq : q = m.fresh <;> simp [Mem.previousOf, get_alloc, hq]

theorem content_alloc (m : Mem K I) (k : K) (i : I) (q : Nat) :
    (m.alloc k i).1.content q = if q = m.fresh then some (k, i) else m.content q := by
  by_cases hq : q = m.fresh <;> simp [Mem.content, get_alloc, hq]

theorem ne_fresh_of_isSome {m : Mem K I} {p : Nat} (hp : (m.get p).isSome) : p ≠ m.fresh := by
  intro h
  rw [h, get_fresh] at hp
  simp at hp

end Fields

/-! ## Chains -/

section Chains

variable {α : Type}

/-- A chain stays a chain under a relation that agrees on adjacent positions. -/
theorem chain'_imp_pos {R S : α → α → Prop} :
    ∀ l : List α, List.Chain' R l →
      (∀ p q, p ∈ l.dropLast → q ∈ l.tail → R p q → S p q) → List.Chain' S l
  | [], _, _ => trivial
  | [_], _, _ => List.chain'_singleton _
  | a :: b :: l, h, himp => by
    rw [List.chain'_cons] at h ⊢
    refine ⟨himp a b (by simp) (by simp) h.1, ?_⟩
    apply chain'_imp_pos (b :: l) h.2
    intro p q hp hq
    exact himp p q (by simp [List.dropLast, hp]) (by simp [List.mem_of_mem_tail hq])

theorem getLast_not_mem_dropLast : ∀ (l : List α) (hl : l ≠ []), l.Nodup →
    l.getLast hl ∉ l.dropLast := by
  intro l hl hn hmem
  have h := List.dropLast_append_getLast hl
  rw [← h] at hn
  have := List.nodup_append.1 hn
  exact this.2.2 hmem (by simp)

theorem head_not_mem_tail (l : List α) (hl : l ≠ []) (hn : l.Nodup) : l.head hl ∉ l.tail := by
  cases l with
  | nil => exact absurd rfl hl
  | cons a t => simpa using (List.nodup_cons.1 hn).1

end Chains

/-! ## The traversal loops -/

section Loops

variable {K I : Type}

theorem pairs_cons {m : Mem K I} {p : Nat} {nd : Node K I} (h : m.get p = some nd)
    (ps : List Nat) : pairs m (p :: ps) = (nd.key, nd.info) :: pairs m ps := by
  simp [pairs, Mem.content, h]

theorem pairs_nil (m : Mem K I) : pairs m [] = [] := rfl

theorem printLoop_spec (m : Mem K I) (any : Nat) :
    ∀ (rest : List Nat) (p fuel : Nat),
      List.Chain (fun a b => m.nextOf a = some b) p (rest ++ [any]) → any ∉ rest →
      rest.length < fuel → printLoop m any fuel p = some (pairs m (p :: rest)) := by
  intro rest
  induction rest with
  | nil =>
    intro p fuel hc _ hf
    obtain ⟨f, rfl⟩ : ∃ f, fuel = f + 1 := ⟨fuel - 1, by simp at hf; omega⟩
    simp only [List.nil_append, List.chain_cons] at hc
    obtain ⟨nd, hnd, hnx⟩ := nextOf_eq_some.1 hc.1
    simp [printLoop, hnd, hnx, pairs_cons hnd, pairs_nil]
  | cons q rest ih =>
    intro p fuel hc hany hf
    obtain ⟨f, rfl⟩ : ∃ f, fuel = f + 1 := ⟨fuel - 1, by simp at hf; omega⟩
    simp only [List.cons_append, List.chain_cons] at hc
    obtain ⟨nd, hnd, hnx⟩ := nextOf_eq_some.1 hc.1
    have hq : q ≠ any := fun h => hany (by simp [h])
    have hrec := ih q f hc.2 (fun h => hany (List.mem_cons_of_mem _ h))
      (by simp at hf; omega)
    simp [printLoop, hnd, hnx, hq, hrec, pairs_cons hnd]

theorem lengthLoop_spec (m : Mem K I) (any : Nat) :
    ∀ (rest : List Nat) (p fuel c : Nat),
      List.Chain (fun a b => m.nextOf a = some b) p (rest ++ [any]) → any ∉ rest →
      rest.length < fuel → c + 1 + rest.length < 4294967296 →
      lengthLoop m any fuel p c = some (c + 1 + rest.length) := by
  intro rest
  induction rest with
  | nil =>
    intro p fuel c hc _ hf hb
    obtain ⟨f, rfl⟩ : ∃ f, fuel = f + 1 := ⟨fuel - 1, by simp at hf; omega⟩
    simp only [List.nil_append, List.chain_cons] at hc
    obtain ⟨nd, hnd, hnx⟩ := nextOf_eq_some.1 hc.1
    simp at hb
    simp [lengthLoop, hnd, hnx]
    omega
  | cons q rest ih =>
    intro p fuel c hc hany hf hb
    obtain ⟨f, rfl⟩ : ∃ f, fuel = f + 1 := ⟨fuel - 1, by simp at hf; omega⟩
    simp only [List.cons_append, List.chain_cons] at hc
    obtain ⟨nd, hnd, hnx⟩ := nextOf_eq_some.1 hc.1
    have hq : q ≠ any := fun h => hany (by simp [h])
    simp at hb hf
    have hc1 : (c + 1) % 4294967296 = c + 1 := Nat.mod_eq_of_lt (by omega)
    have hrec := ih q f (c + 1) hc.2 (fun h => hany (List.mem_cons_of_mem _ h))
      (by omega) (by omega)
    simp [lengthLoop, hnd, hnx, hq, hc1, hrec]
    omega

theorem howManyLoop_spec [DecidableEq K] (m : Mem K I) (any : Nat) (aKey : K) :
    ∀ (rest : List Nat) (p fuel c : Nat),
      List.Chain (fun a b => m.nextOf a = some b) p (rest ++ [any]) → any ∉ rest →
      rest.length < fuel →
      c + ((pairs m (p :: rest)).map Prod.fst).count aKey < 4294967296 →
      howManyLoop m any aKey fuel p c
        = some (c + ((pairs m (p :: rest)).map Prod.fst).count aKey) := by
  intro rest
  induction rest with
  | nil =>
    intro p fuel c hc _ hf hb
    obtain ⟨f, rfl⟩ : ∃ f, fuel = f + 1 := ⟨fuel - 1, by simp at hf; omega⟩
    simp only [List.nil_append, List.chain_cons] at hc
    obtain ⟨nd, hnd, hnx⟩ := nextOf_eq_some.1 hc.1
    rw [pairs_cons hnd] at hb ⊢
    by_cases hk : nd.key = aKey
    · simp [pairs_nil, hk] at hb
      have hc1 : (c + 1) % 4294967296 = c + 1 := Nat.mod_eq_of_lt (by omega)
      simp [howManyLoop, hnd, hnx, hk, hc1, pairs_nil]
    · simp [howManyLoop, hnd, hnx, hk, pairs_nil, List.count_cons]
  | cons q rest ih =>
    intro p fuel c hc hany hf hb
    obtain ⟨f, rfl⟩ : ∃ f, fuel = f + 1 := ⟨fuel - 1, by simp at hf; omega⟩
    simp only [List.cons_append, List.chain_cons] at hc
    obtain ⟨nd, hnd, hnx⟩ := nextOf_eq_some.1 hc.1
    have hq : q ≠ any := fun h => hany (by simp [h])
    rw [pairs_cons hnd] at hb ⊢
    simp at hf
    by_cases hk : nd.key = aKey
    · simp [hk] at hb
      have hc1 : (c + 1) % 4294967296 = c + 1 := Nat.mod_eq_of_lt (by omega)
      have hrec := ih q f (c + 1) hc.2 (fun h => hany (List.mem_cons_of_mem _ h))
        (by omega) (by omega)
      simp [howManyLoop, hnd, hnx, hq, hk, hc1, hrec]
      omega
    · simp [hk, List.count_cons] at hb
      have hrec := ih q f c hc.2 (fun h => hany (List.mem_cons_of_mem _ h))
        (by omega) (by omega)
      simp [howManyLoop, hnd, hnx, hq, hk, hrec, List.count_cons]

end Loops

section Find

variable {K I : Type}

theorem findLoop_spec [DecidableEq K] (m : Mem K I) (any : Nat) (aKey : K) (occ : Int) :
    ∀ (rest : List Nat) (p fuel : Nat) (i : Int),
      List.Chain (fun a b => m.nextOf a = some b) p (rest ++ [any]) → any ∉ rest →
      rest.length < fuel → i < occ →
      i + (((pairs m (p :: rest)).map Prod.fst).count aKey : Nat) < 2147483648 →
      ∃ r, findLoop m any aKey occ fuel p i = some r ∧
        ((r = 0 ∧ i + (((pairs m (p :: rest)).map Prod.fst).count aKey : Nat) < occ) ∨
         (∃ pre post v, p :: rest = pre ++ r :: post ∧ m.content r = some (aKey, v) ∧
            i + (((pairs m pre).map Prod.fst).count aKey : Nat) + 1 = occ)) := by
  intro rest
  induction rest with
  | nil =>
    intro p fuel i hc _ hf hi hb
    obtain ⟨f, rfl⟩ : ∃ f, fuel = f + 1 := ⟨fuel - 1, by simp at hf; omega⟩
    simp only [List.nil_append, List.chain_cons] at hc
    obtain ⟨nd, hnd, hnx⟩ := nextOf_eq_some.1 hc.1
    rw [pairs_cons hnd] at hb ⊢
    by_cases hk : nd.key = aKey
    · simp [pairs_nil, hk] at hb
      have hov : ¬ (2147483647 < i + 1) := by omega
      by_cases ho : i + 1 = occ
      · have hov2 : ¬ (2147483647 < occ) := by omega
        refine ⟨p, by simp [findLoop, hnd, hk, hov2, ho],
          Or.inr ⟨[], [], nd.info, rfl, by simp [Mem.content, hnd, hk], ?_⟩⟩
        simp [pairs_nil, ho]
      · refine ⟨0, by simp [findLoop, hnd, hnx, hk, hov, ho], Or.inl ⟨rfl, ?_⟩⟩
        simp [pairs_nil, hk]
        omega
    · refine ⟨0, by simp [findLoop, hnd, hnx, hk], Or.inl ⟨rfl, ?_⟩⟩
      simp [pairs_nil, hk, List.count_cons]
      omega
  | cons q rest ih =>
    intro p fuel i hc hany hf hi hb
    obtain ⟨f, rfl⟩ : ∃ f, fuel = f + 1 := ⟨fuel - 1, by simp at hf; omega⟩
    simp only [List.cons_append, List.chain_cons] at hc
    obtain ⟨nd, hnd, hnx⟩ := nextOf_eq_some.1 hc.1
    have hq : q ≠ any := fun h => hany (by simp [h])
    have hany2 : any ∉ rest := fun h => hany (List.mem_cons_of_mem _ h)
    rw [pairs_cons hnd] at hb ⊢
    simp at hf
    by_cases hk : nd.key = aKey
    · simp [hk] at hb
      have hov : ¬ (2147483647 < i + 1) := by omega
      by_cases ho : i + 1 = occ
      · have hov2 : ¬ (2147483647 < occ) := by omega
        refine ⟨p, by simp [findLoop, hnd, hk, hov2, ho],
          Or.inr ⟨[], q :: rest, nd.info, rfl, by simp [Mem.content, hnd, hk], ?_⟩⟩
        simp [pairs_nil, ho]
      · obtain ⟨r, hr, hcase⟩ := ih q f (i + 1) hc.2 hany2 (by omega) (by omega) (by omega)
        refine ⟨r, by simp [findLoop, hnd, hnx, hk, hov, ho, hq, hr], ?_⟩
        rcases hcase with ⟨h0, hlt⟩ | ⟨pre, post, v, hsplit, hv, hcnt⟩
        · left
          refine ⟨h0, ?_⟩
          simp [hk]
          omega
        · right
          refine ⟨p :: pre, post, v, by simp [hsplit], hv, ?_⟩
          rw [pairs_cons hnd]
          simp [hk]
          omega
    · simp [hk, List.count_cons] at hb
      obtain ⟨r, hr, hcase⟩ := ih q f i hc.2 hany2 (by omega) hi (by omega)
      refine ⟨r, by simp [findLoop, hnd, hnx, hk, hq, hr], ?_⟩
      rcases hcase with ⟨h0, hlt⟩ | ⟨pre, post, v, hsplit, hv, hcnt⟩
      · left
        refine ⟨h0, ?_⟩
        simp [hk, List.count_cons]
        omega
      · right
        refine ⟨p :: pre, post, v, by simp [hsplit], hv, ?_⟩
        rw [pairs_cons hnd]
        simp [hk, List.count_cons]
        omega

end Find

section Cyclic

variable {α : Type}

/-- A closed chain can be read from any of its elements. -/
theorem cyc_rotate {R : α → α → Prop} (a b : List α) :
    List.Chain' R ((a ++ b) ++ (a ++ b).take 1) ↔ List.Chain' R ((b ++ a) ++ (b ++ a).take 1) := by
  cases a with
  | nil => simp
  | cons x a' =>
    cases b with
    | nil => simp
    | cons y b' =>
      have h1 : (x :: a' ++ y :: b') ++ (x :: a' ++ y :: b').take 1
          = (x :: a') ++ y :: (b' ++ [x]) := by simp
      have h2 : (y :: b' ++ x :: a') ++ (y :: b' ++ x :: a').take 1
          = (y :: b') ++ x :: (a' ++ [y]) := by simp
      rw [h1, h2]
      exact (@List.chain'_split _ R y (x :: a') (b' ++ [x])).trans
        (and_comm.trans (@List.chain'_split _ R x (y :: b') (a' ++ [y])).symm)

theorem chain_exists_next {R : α → α → Prop} :
    ∀ (l : List α) (a : α), l ≠ [] → List.Chain R a l → ∀ p ∈ (a :: l).dropLast, ∃ q, R p q
  | [], _, h, _ => absurd rfl h
  | [b], a, _, hc => by
    intro p hp
    simp at hp
    subst hp
    exact ⟨b, (List.chain_cons.1 hc).1⟩
  | b :: c :: l, a, _, hc => by
    intro p hp
    rw [List.chain_cons] at hc
    have hd : (a :: b :: c :: l).dropLast = a :: (b :: c :: l).dropLast := rfl
    rw [hd, List.mem_cons] at hp
    rcases hp with rfl | hp
    · exact ⟨b, hc.1⟩
    · exact chain_exists_next (c :: l) b (by simp) hc.2 p hp

end Cyclic

/-! ## Well-formed rings -/

section Rings

variable {K I : Type}

theorem ring_nil (m : Mem K I) (any : Nat) : Ring m any [] ↔ any = 0 := by
  simp [Ring]

theorem ring_cons (m : Mem K I) (any a : Nat) (t : List Nat) :
    Ring m any (a :: t) ↔ any = a ∧ (a :: t).Nodup ∧ List.Chain (Link m) a (t ++ [a]) := by
  simp [Ring, List.Chain']

theorem Ring.isSome_get {m : Mem K I} {any : Nat} {ps : List Nat} (h : Ring m any ps)
    {p : Nat} (hp : p ∈ ps) : (m.get p).isSome := by
  cases ps with
  | nil => simp at hp
  | cons a t =>
    obtain ⟨_, _, hc⟩ := (ring_cons m any a t).1 h
    have hd : (a :: (t ++ [a])).dropLast = a :: t := by
      rw [← List.cons_append, List.dropLast_concat]
    obtain ⟨q, hq⟩ := chain_exists_next (t ++ [a]) a (by simp) hc p (by rw [hd]; exact hp)
    exact isSome_of_nextOf hq.1

theorem Ring.ne_zero {m : Mem K I} {any : Nat} {ps : List Nat} (h : Ring m any ps)
    {p : Nat} (hp : p ∈ ps) : p ≠ 0 := by
  intro h0
  have := h.isSome_get hp
  rw [h0, get_zero] at this
  simp at this

theorem Ring.any_eq_zero_iff {m : Mem K I} {any : Nat} {ps : List Nat} (h : Ring m any ps) :
    any = 0 ↔ ps = [] := by
  cases ps with
  | nil => simpa using (ring_nil m any).1 h
  | cons a t =>
    have ha : any = a := ((ring_cons m any a t).1 h).1
    have := h.ne_zero (List.mem_cons_self a t)
    simp [ha, this]

theorem Ring.nextChain {m : Mem K I} {any a : Nat} {t : List Nat} (h : Ring m any (a :: t)) :
    List.Chain (fun p q => m.nextOf p = some q) a (t ++ [a]) ∧ a ∉ t := by
  obtain ⟨_, hn, hc⟩ := (ring_cons m any a t).1 h
  exact ⟨hc.imp (fun _ _ hl => hl.1), (List.nodup_cons.1 hn).1⟩

/-- Every node of a well-formed ring holds a pair: the traversal has one pair per node. -/
theorem pairs_eq_map {m : Mem K I} :
    ∀ {ps : List Nat}, (∀ p ∈ ps, (m.get p).isSome) → (pairs m ps).map some = ps.map m.content
  | [], _ => rfl
  | p :: ps, h => by
    obtain ⟨nd, hnd⟩ := Option.isSome_iff_exists.1 (h p (List.mem_cons_self _ _))
    rw [pairs_cons hnd, List.map_cons, List.map_cons,
      pairs_eq_map (fun q hq => h q (List.mem_cons_of_mem _ hq))]
    simp [Mem.content, hnd]

theorem Ring.length_pairs {m : Mem K I} {any : Nat} {ps : List Nat} (h : Ring m any ps) :
    (pairs m ps).length = ps.length := by
  have := congrArg List.length (pairs_eq_map (fun p hp => h.isSome_get hp))
  simpa using this

theorem pairs_append (m : Mem K I) (xs ys : List Nat) :
    pairs m (xs ++ ys) = pairs m xs ++ pairs m ys := by
  simp [pairs, List.filterMap_append]

theorem pairs_congr {m m' : Mem K I} {ps : List Nat}
    (h : ∀ p ∈ ps, m'.content p = m.content p) : pairs m' ps = pairs m ps := by
  induction ps with
  | nil => rfl
  | cons p ps ih =>
    simp only [pairs, List.filterMap_cons, h p (List.mem_cons_self _ _)]
    have := ih (fun q hq => h q (List.mem_cons_of_mem _ hq))
    simp only [pairs] at this
    rw [this]

theorem print_spec {m : Mem K I} {any : Nat} {ps : List Nat} (h : Ring m any ps)
    {fuel : Nat} (hf : ps.length ≤ fuel) : print fuel m any = some (pairs m ps) := by
  cases ps with
  | nil => simp [print, (ring_nil m any).1 h, pairs_nil]
  | cons a t =>
    have ha : any = a := ((ring_cons m any a t).1 h).1
    have h0 : a ≠ 0 := h.ne_zero (List.mem_cons_self a t)
    obtain ⟨hc, hnt⟩ := h.nextChain
    subst ha
    simp only [print, if_neg h0]
    exact printLoop_spec m any t any fuel hc hnt (by simpa using hf)

theorem length_spec {m : Mem K I} {any : Nat} {ps : List Nat} (h : Ring m any ps)
    {fuel : Nat} (hf : ps.length ≤ fuel) (hb : ps.length < 4294967296) :
    length fuel m any = some ps.length := by
  cases ps with
  | nil => simp [length, (ring_nil m any).1 h]
  | cons a t =>
    have ha : any = a := ((ring_cons m any a t).1 h).1
    have h0 : a ≠ 0 := h.ne_zero (List.mem_cons_self a t)
    obtain ⟨hc, hnt⟩ := h.nextChain
    subst ha
    simp only [length, if_neg h0]
    have := lengthLoop_spec m any t any fuel 0 hc hnt (by simpa using hf)
      (by simp at hb; omega)
    rw [this]
    simp
    omega

theorem howMany_spec [DecidableEq K] {m : Mem K I} {any : Nat} {ps : List Nat}
    (h : Ring m any ps) {fuel : Nat} (hf : ps.length ≤ fuel) (hb : ps.length < 4294967296)
    (aKey : K) :
    howMany fuel m any aKey = some (((pairs m ps).map Prod.fst).count aKey) := by
  cases ps with
  | nil => simp [howMany, (ring_nil m any).1 h, pairs_nil]
  | cons a t =>
    have ha : any = a := ((ring_cons m any a t).1 h).1
    have h0 : a ≠ 0 := h.ne_zero (List.mem_cons_self a t)
    obtain ⟨hc, hnt⟩ := h.nextChain
    have hle : ((pairs m (a :: t)).map Prod.fst).count aKey ≤ (a :: t).length := by
      rw [← h.length_pairs]
      exact (List.count_le_length _ _).trans (le_of_eq (List.length_map _ _))
    subst ha
    simp only [howMany, if_neg h0]
    have := howManyLoop_spec m any aKey t any fuel 0 hc hnt (by simpa using hf) (by omega)
    rw [this]
    simp

theorem find_spec [DecidableEq K] {m : Mem K I} {any : Nat} {ps : List Nat}
    (h : Ring m any ps) {fuel : Nat} (hf : ps.length ≤ fuel) (hb : ps.length < 2147483648)
    (aKey : K) {occ : Int} (ho : 1 ≤ occ) :
    ∃ r, find fuel m any aKey occ = some r ∧
      ((r = 0 ∧ ((((pairs m ps).map Prod.fst).count aKey : Nat) : Int) < occ) ∨
       (∃ pre post v, ps = pre ++ r :: post ∧ m.content r = some (aKey, v) ∧
          ((((pairs m pre).map Prod.fst).count aKey : Nat) : Int) + 1 = occ)) := by
  cases ps with
  | nil =>
    refine ⟨0, by simp [find, (ring_nil m any).1 h], Or.inl ⟨rfl, ?_⟩⟩
    simp [pairs_nil]
    omega
  | cons a t =>
    have ha : any = a := ((ring_cons m any a t).1 h).1
    have h0 : a ≠ 0 := h.ne_zero (List.mem_cons_self a t)
    obtain ⟨hc, hnt⟩ := h.nextChain
    have hle : ((pairs m (a :: t)).map Prod.fst).count aKey ≤ (a :: t).length := by
      rw [← h.length_pairs]
      exact (List.count_le_length _ _).trans (le_of_eq (List.length_map _ _))
    subst ha
    simp only [find, if_neg h0]
    have := findLoop_spec m any aKey occ t any fuel 0 hc hnt (by simpa using hf) (by omega)
      (by omega)
    simpa using this

end Rings

section Closed

variable {α : Type}

theorem chain'_concat {R : α → α → Prop} (l : List α) (hl : l ≠ []) (x : α) :
    List.Chain' R (l ++ [x]) ↔ List.Chain' R l ∧ R (l.getLast hl) x := by
  rw [List.chain'_append]
  simp [List.getLast?_eq_getLast _ hl]

/-- A closed chain is a chain whose last element is related to its first. -/
theorem cyc_iff {R : α → α → Prop} (l : List α) (hl : l ≠ []) :
    List.Chain' R (l ++ l.take 1) ↔ List.Chain' R l ∧ R (l.getLast hl) (l.head hl) := by
  have h1 : l.take 1 = [l.head hl] := by
    cases l with
    | nil => exact absurd rfl hl
    | cons a t => simp
  rw [h1, chain'_concat l hl]

end Closed

section Rings2

variable {K I : Type}

theorem ring_iff {m : Mem K I} {any : Nat} {ps : List Nat} (hl : ps ≠ []) :
    Ring m any ps ↔ any = ps.head hl ∧ ps.Nodup ∧ List.Chain' (Link m) ps ∧
      Link m (ps.getLast hl) (ps.head hl) := by
  have h1 : ps.headD 0 = ps.head hl := by
    cases ps with
    | nil => exact absurd rfl hl
    | cons a t => simp
  rw [Ring, cyc_iff ps hl, h1]

end Rings2

section PushBack

variable {K I : Type}

theorem pushBack_empty (m : Mem K I) (k : K) (i : I) :
    ∃ m', pushBack m 0 k i = some (m', m.fresh) ∧ Ring m' m.fresh [m.fresh] ∧
      pairs m' [m.fresh] = [(k, i)] ∧ m'.content m.fresh = some (k, i) ∧
      (∀ q, q ≠ m.fresh → m'.get q = m.get q) := by
  have hlive : ((m.alloc k i).1.get m.fresh).isSome := by simp [get_alloc]
  obtain ⟨m1, h1, hn1, hp1, hc1, hg1⟩ := setNext_spec (m.alloc k i).1 m.fresh m.fresh hlive
  have hlive1 : (m1.get m.fresh).isSome := by rw [isSome_congr hc1]; exact hlive
  obtain ⟨m2, h2, hn2, hp2, hc2, hg2⟩ := setPrevious_spec m1 m.fresh m.fresh hlive1
  refine ⟨m2, by simp [pushBack, alloc_snd, h1, h2], ?_, ?_, ?_, ?_⟩
  · rw [ring_iff (List.cons_ne_nil _ _)]
    simp [Link, hn2, hn1, hp2]
  · simp [pairs, hc2, hc1, content_alloc]
  · simp [hc2, hc1, content_alloc]
  · intro q hq
    rw [hg2 q hq, hg1 q hq, get_alloc, if_neg hq]

theorem pushBack_nonempty {m : Mem K I} {any : Nat} {ps : List Nat} (h : Ring m any ps)
    (hl : ps ≠ []) (k : K) (i : I) :
    ∃ m', pushBack m any k i = some (m', any) ∧ Ring m' any (ps ++ [m.fresh]) ∧
      pairs m' (ps ++ [m.fresh]) = pairs m ps ++ [(k, i)] ∧
      m'.content m.fresh = some (k, i) ∧ m'.previousOf any = some m.fresh ∧
      (∀ q, q ∉ ps → q ≠ m.fresh → m'.get q = m.get q) := by
  obtain ⟨ha, hnd, hch, hlast⟩ := (ring_iff hl).1 h
  have hany : any ≠ 0 := fun h0 => hl (h.any_eq_zero_iff.1 h0)
  have hamem : any ∈ ps := by rw [ha]; exact List.head_mem hl
  have hzmem : ps.getLast hl ∈ ps := List.getLast_mem hl
  have hfresh : ∀ p ∈ ps, p ≠ m.fresh := fun p hp => ne_fresh_of_isSome (h.isSome_get hp)
  have hanyf : any ≠ m.fresh := hfresh any hamem
  have hzf : ps.getLast hl ≠ m.fresh := hfresh _ hzmem
  have hprev : m.previousOf any = some (ps.getLast hl) := by rw [ha]; exact hlast.2
  -- the four assignments
  have hlive0 : ∀ q, q ∈ ps ∨ q = m.fresh → ((m.alloc k i).1.get q).isSome := by
    intro q hq
    rw [get_alloc]
    rcases hq with hq | hq
    · rw [if_neg (hfresh q hq)]; exact h.isSome_get hq
    · simp [hq]
  obtain ⟨m1, h1, hn1, hp1, hc1, hg1⟩ :=
    setNext_spec (m.alloc k i).1 m.fresh any (hlive0 _ (Or.inr rfl))
  have hlive1 : ∀ q, q ∈ ps ∨ q = m.fresh → (m1.get q).isSome := fun q hq => by
    rw [isSome_congr hc1]; exact hlive0 q hq
  have hpa1 : m1.previousOf any = some (ps.getLast hl) := by
    rw [hp1, previousOf_alloc, if_neg hanyf, hprev]
  obtain ⟨a1, ha1, hz1⟩ := previousOf_eq_some.1 hpa1
  obtain ⟨m2, h2, hn2, hp2, hc2, hg2⟩ :=
    setPrevious_spec m1 m.fresh (ps.getLast hl) (hlive1 _ (Or.inr rfl))
  have hlive2 : ∀ q, q ∈ ps ∨ q = m.fresh → (m2.get q).isSome := fun q hq => by
    rw [isSome_congr hc2]; exact hlive1 q hq
  have hpa2 : m2.previousOf any = some (ps.getLast hl) := by
    rw [hp2, if_neg hanyf, hpa1]
  obtain ⟨a2, ha2, hz2⟩ := previousOf_eq_some.1 hpa2
  obtain ⟨m3, h3, hn3, hp3, hc3, hg3⟩ :=
    setNext_spec m2 (ps.getLast hl) m.fresh (hlive2 _ (Or.inl hzmem))
  have hlive3 : ∀ q, q ∈ ps ∨ q = m.fresh → (m3.get q).isSome := fun q hq => by
    rw [isSome_congr hc3]; exact hlive2 q hq
  obtain ⟨m4, h4, hn4, hp4, hc4, hg4⟩ :=
    setPrevious_spec m3 any m.fresh (hlive3 _ (Or.inl hamem))
  -- the fields of the resulting store
  have hnext : ∀ q, m4.nextOf q = if q = ps.getLast hl then some m.fresh
      else if q = m.fresh then some any else m.nextOf q := by
    intro q
    rw [hn4, hn3, hn2, hn1, nextOf_alloc]
    by_cases hq : q = m.fresh <;> simp [hq]
  have hprevious : ∀ q, m4.previousOf q = if q = any then some m.fresh
      else if q = m.fresh then some (ps.getLast hl) else m.previousOf q := by
    intro q
    rw [hp4, hp3, hp2, hp1, previousOf_alloc]
    by_cases hq : q = m.fresh <;> simp [hq]
  have hcontent : ∀ q, m4.content q = if q = m.fresh then some (k, i) else m.content q := by
    intro q
    rw [hc4, hc3, hc2, hc1, content_alloc]
  refine ⟨m4, ?_, ?_, ?_, by rw [hcontent, if_pos rfl], ?_, ?_⟩
  · simp [pushBack, alloc_snd, hany, h1, ha1, hz1, h2, ha2, hz2, h3, h4]
  · have hl2 : ps ++ [m.fresh] ≠ [] := by simp
    rw [ring_iff hl2]
    refine ⟨?_, ?_, ?_, ?_⟩
    · rw [List.head_append_of_ne_nil hl]; exact ha
    · rw [List.nodup_append]
      refine ⟨hnd, List.nodup_singleton _, ?_⟩
      intro x hx hx2
      simp at hx2
      exact hfresh x hx hx2
    · rw [chain'_concat ps hl]
      refine ⟨?_, ?_⟩
      · apply chain'_imp_pos ps hch
        intro p q hp hq hlink
        have hp1 : p ≠ ps.getLast hl := fun e =>
          getLast_not_mem_dropLast ps hl hnd (e ▸ hp)
        have hp2 : p ≠ m.fresh := hfresh p (List.dropLast_subset ps hp)
        have hq1 : q ≠ any := fun e => head_not_mem_tail ps hl hnd (by rw [← ha, ← e]; exact hq)
        have hq2 : q ≠ m.fresh := hfresh q (List.mem_of_mem_tail hq)
        exact ⟨by rw [hnext, if_neg hp1, if_neg hp2]; exact hlink.1,
          by rw [hprevious, if_neg hq1, if_neg hq2]; exact hlink.2⟩
      · exact ⟨by rw [hnext, if_pos rfl],
          by rw [hprevious, if_neg hanyf.symm, if_pos rfl]⟩
    · rw [List.getLast_append_singleton, List.head_append_of_ne_nil hl, ← ha]
      exact ⟨by rw [hnext, if_neg hzf.symm, if_pos rfl], by rw [hprevious, if_pos rfl]⟩
  · have e1 : pairs m4 ps = pairs m ps :=
      pairs_congr (fun p hp => by rw [hcontent, if_neg (hfresh p hp)])
    rw [pairs_append, e1]
    simp [pairs, hcontent]
  · rw [hprevious, if_pos rfl]
  · intro q hq hqf
    have hqa : q ≠ any := fun e => hq (e ▸ hamem)
    have hqz : q ≠ ps.getLast hl := fun e => hq (e ▸ hzmem)
    rw [hg4 q hqa, hg3 q hqz, hg2 q hqf, hg1 q hqf, get_alloc, if_neg hqf]

end PushBack

section Remove

variable {K I : Type}

/-- A well-formed ring read from another of its nodes is a well-formed ring. -/
theorem ring_rotate {m : Mem K I} {any : Nat} {pre post : List Nat} {x : Nat}
    (h : Ring m any (pre ++ x :: post)) : Ring m x (x :: (post ++ pre)) := by
  obtain ⟨_, hnd, hc⟩ := h
  refine ⟨by simp, ?_, ?_⟩
  · have hp : ((x :: post) ++ pre).Perm (pre ++ x :: post) := List.perm_append_comm
    exact hp.nodup_iff.2 hnd
  · exact (cyc_rotate pre (x :: post)).1 hc

/-- In a ring of two or more nodes the successor of the anchor is another node. -/
theorem Ring.next_any_ne {m : Mem K I} {any : Nat} {ps : List Nat} (h : Ring m any ps)
    (hlen : 2 ≤ ps.length) : ∃ w, m.nextOf any = some w ∧ w ≠ any := by
  cases ps with
  | nil => simp at hlen
  | cons a t =>
    cases t with
    | nil => simp at hlen
    | cons b r =>
      obtain ⟨ha, hnd, hc⟩ := (ring_cons m any a (b :: r)).1 h
      subst ha
      refine ⟨b, (List.chain_cons.1 hc).1.1, ?_⟩
      intro e
      have := (List.nodup_cons.1 hnd).1
      simp [e] at this

theorem removeIt_single {m : Mem K I} {any x : Nat} (h : Ring m any [x]) :
    ∃ m', removeIt m any x = some (m', 0) ∧ Ring m' 0 [] ∧
      (∀ q, m'.get q = if q = x then none else m.get q) := by
  obtain ⟨ha, _, hc⟩ := (ring_cons m any x []).1 h
  subst ha
  have hx0 : any ≠ 0 := h.ne_zero (List.mem_cons_self _ _)
  simp only [List.nil_append, List.chain_cons] at hc
  obtain ⟨nd, hnd, hnx⟩ := nextOf_eq_some.1 hc.1.1
  obtain ⟨m1, h1, hg1⟩ := free_spec m any (by simp [hnd])
  exact ⟨m1, by simp [removeIt, hx0, hnd, hnx, h1], (ring_nil _ _).2 rfl, hg1⟩

theorem removeIt_rotated {m : Mem K I} {any x : Nat} {t : List Nat} (h : Ring m x (x :: t))
    (ht : t ≠ []) {w : Nat} (hw : m.nextOf any = some w) (hwa : w ≠ any) :
    ∃ m', removeIt m any x = some (m', t.head ht) ∧ Ring m' (t.head ht) t ∧
      (∀ q, m'.content q = if q = x then none else m.content q) ∧
      m'.get x = none ∧ (∀ q, q ∉ x :: t → m'.get q = m.get q) := by
  obtain ⟨_, hnd, hch, hlast⟩ := (ring_iff (List.cons_ne_nil x t)).1 h
  have hx0 : x ≠ 0 := h.ne_zero (List.mem_cons_self _ _)
  have hxt : x ∉ t := (List.nodup_cons.1 hnd).1
  have hndt : t.Nodup := (List.nodup_cons.1 hnd).2
  have hsmem : t.head ht ∈ t := List.head_mem ht
  have hzmem : t.getLast ht ∈ t := List.getLast_mem ht
  have hsx : t.head ht ≠ x := fun e => hxt (e ▸ hsmem)
  have hzx : t.getLast ht ≠ x := fun e => hxt (e ▸ hzmem)
  -- the neighbours of the removed node
  have hxs : Link m x (t.head ht) ∧ List.Chain' (Link m) t := by
    cases t with
    | nil => exact absurd rfl ht
    | cons s r => exact List.chain'_cons.1 hch
  have hzx2 : Link m (t.getLast ht) x := by
    rw [List.getLast_cons ht] at hlast
    exact hlast
  obtain ⟨a, hga, hna⟩ := nextOf_eq_some.1 hw
  obtain ⟨l0, hl0, hl0n⟩ := nextOf_eq_some.1 hxs.1.1
  have hl0p : l0.previous = t.getLast ht := by
    obtain ⟨l0', hl0', hp⟩ := previousOf_eq_some.1 hzx2.2
    rw [hl0] at hl0'
    cases hl0'
    exact hp
  have hlive : ∀ q ∈ x :: t, (m.get q).isSome := fun q hq => h.isSome_get hq
  -- the two assignments and the deletion
  obtain ⟨m1, h1, hn1, hp1, hc1, hg1⟩ :=
    setPrevious_spec m (t.head ht) (t.getLast ht) (hlive _ (List.mem_cons_of_mem _ hsmem))
  have hl1 : m1.get x = some l0 := by rw [hg1 x hsx.symm, hl0]
  obtain ⟨m2, h2, hn2, hp2, hc2, hg2⟩ :=
    setNext_spec m1 (t.getLast ht) (t.head ht)
      (by rw [isSome_congr hc1]; exact hlive _ (List.mem_cons_of_mem _ hzmem))
  have hl2 : m2.get x = some l0 := by rw [hg2 x hzx.symm, hl1]
  obtain ⟨m3, h3, hg3⟩ := free_spec m2 x (by simp [hl2])
  have hnext : ∀ q, q ≠ x → m3.nextOf q
      = if q = t.getLast ht then some (t.head ht) else m.nextOf q := by
    intro q hq
    rw [Mem.nextOf, hg3, if_neg hq, ← Mem.nextOf, hn2, hn1]
  have hprevious : ∀ q, q ≠ x → m3.previousOf q
      = if q = t.head ht then some (t.getLast ht) else m.previousOf q := by
    intro q hq
    rw [Mem.previousOf, hg3, if_neg hq, ← Mem.previousOf, hp2, hp1]
  have hcontent : ∀ q, m3.content q = if q = x then none else m.content q := by
    intro q
    by_cases hq : q = x
    · simp [Mem.content, hg3, hq]
    · rw [Mem.content, hg3, if_neg hq, ← Mem.content, hc2, hc1, if_neg hq]
  refine ⟨m3, ?_, ?_, hcontent, by rw [hg3, if_pos rfl], ?_⟩
  · have hne : ¬ any = a.next := by rw [hna]; exact fun e => hwa e.symm
    simp [removeIt, hx0, hga, hne, hl0, hl0n, hl0p, h1, hl1, h2, hl2, h3]
  · rw [ring_iff ht]
    refine ⟨rfl, hndt, ?_, ?_⟩
    · apply chain'_imp_pos t hxs.2
      intro p q hp hq hlink
      have hpx : p ≠ x := fun e => hxt (e ▸ List.dropLast_subset t hp)
      have hqx : q ≠ x := fun e => hxt (e ▸ List.mem_of_mem_tail hq)
      have hpz : p ≠ t.getLast ht := fun e => getLast_not_mem_dropLast t ht hndt (e ▸ hp)
      have hqs : q ≠ t.head ht := fun e => head_not_mem_tail t ht hndt (e ▸ hq)
      exact ⟨by rw [hnext p hpx, if_neg hpz]; exact hlink.1,
        by rw [hprevious q hqx, if_neg hqs]; exact hlink.2⟩
    · exact ⟨by rw [hnext _ hzx, if_pos rfl], by rw [hprevious _ hsx, if_pos rfl]⟩
  · intro q hq
    have hqx : q ≠ x := fun e => hq (e ▸ List.mem_cons_self _ _)
    have hqs : q ≠ t.head ht := fun e => hq (e ▸ List.mem_cons_of_mem _ hsmem)
    have hqz : q ≠ t.getLast ht := fun e => hq (e ▸ List.mem_cons_of_mem _ hzmem)
    rw [hg3, if_neg hqx, hg2 q hqz, hg1 q hqs]

/-- Removal of the node `x` of a ring with at least two nodes: the ring that is left is read
from the successor of `x`. -/
theorem removeIt_spec {m : Mem K I} {any : Nat} {pre post : List Nat} {x : Nat}
    (h : Ring m any (pre ++ x :: post)) (ht : post ++ pre ≠ []) :
    ∃ m', removeIt m any x = some (m', (post ++ pre).head ht) ∧
      Ring m' ((post ++ pre).head ht) (post ++ pre) ∧
      pairs m' (post ++ pre) = pairs m (post ++ pre) ∧
      m'.get x = none ∧ (∀ q, q ∉ pre ++ x :: post → m'.get q = m.get q) := by
  have hlen : 2 ≤ (pre ++ x :: post).length := by
    have : 0 < (post ++ pre).length := List.length_pos.2 ht
    simp only [List.length_append, List.length_cons] at this ⊢
    omega
  obtain ⟨w, hw, hwa⟩ := h.next_any_ne hlen
  obtain ⟨m', hr, hring, hcontent, hx, hframe⟩ := removeIt_rotated (ring_rotate h) ht hw hwa
  have hxt : x ∉ post ++ pre := (List.nodup_cons.1 (ring_rotate h).2.1).1
  refine ⟨m', hr, hring, ?_, hx, ?_⟩
  · apply pairs_congr
    intro p hp
    have hpx : p ≠ x := fun e => hxt (e ▸ hp)
    rw [hcontent, if_neg hpx]
  · intro q hq
    apply hframe
    intro hq2
    apply hq
    simp only [List.mem_cons, List.mem_append] at hq2 ⊢
    tauto

end Remove

section RemoveKey

variable {K I : Type}

theorem head_eq_headD : ∀ (l : List Nat) (hl : l ≠ []), l.head hl = l.headD 0
  | [], hl => absurd rfl hl
  | _ :: _, _ => rfl

/-- Removal of a node of a well-formed ring, of any size. -/
theorem removeIt_ring {m : Mem K I} {any : Nat} {pre post : List Nat} {x : Nat}
    (h : Ring m any (pre ++ x :: post)) :
    ∃ m' any', removeIt m any x = some (m', any') ∧ any' = (post ++ pre).headD 0 ∧
      Ring m' any' (post ++ pre) ∧ pairs m' (post ++ pre) = pairs m (post ++ pre) ∧
      m'.get x = none ∧ (∀ q, q ∉ pre ++ x :: post → m'.get q = m.get q) := by
  by_cases ht : post ++ pre = []
  · have hpost : post = [] := (List.append_eq_nil.1 ht).1
    have hpre : pre = [] := (List.append_eq_nil.1 ht).2
    subst hpost hpre
    obtain ⟨m', hr, hring, hg⟩ := removeIt_single (by simpa using h)
    refine ⟨m', 0, hr, rfl, hring, rfl, by simp [hg], ?_⟩
    intro q hq
    have hqx : q ≠ x := by simpa using hq
    rw [hg, if_neg hqx]
  · obtain ⟨m', hr, hring, hp, hx, hframe⟩ := removeIt_spec h ht
    exact ⟨m', _, hr, head_eq_headD _ ht, hring, hp, hx, hframe⟩

theorem toUnsigned_of_nonneg {x : Int} (h0 : 0 ≤ x) (h1 : x < 4294967296) :
    (toUnsigned x : Int) = x := by
  unfold toUnsigned
  rw [Int.emod_eq_of_lt h0 h1]
  exact Int.toNat_of_nonneg h0

/-- When `find` returns a node, the guards of `remove(key, occurrence)` let the call through
to `remove(iterator)`. -/
theorem remove_eq_removeIt [DecidableEq K] {m : Mem K I} {any : Nat} {ps : List Nat}
    (h : Ring m any ps) {fuel : Nat} (hf : ps.length ≤ fuel) (hb : ps.length < 2147483648)
    (key : K) {occ : Int} (ho : 1 ≤ occ) {r : Nat} (hr : find fuel m any key occ = some r)
    (hr0 : r ≠ 0) : remove fuel m any key occ = removeIt m any r := by
  obtain ⟨r', hr', hcase⟩ := find_spec h hf hb key ho
  rw [hr] at hr'
  cases hr'
  rcases hcase with ⟨h0, _⟩ | ⟨pre, post, v, hsplit, hv, hcnt⟩
  · exact absurd h0 hr0
  · have hany : any ≠ 0 := by
      intro h0
      rw [h.any_eq_zero_iff.1 h0] at hsplit
      simp at hsplit
    have hhm := howMany_spec h hf (by omega) key
    obtain ⟨nd, hnd⟩ := Option.isSome_iff_exists.1
      (h.isSome_get (p := r) (by rw [hsplit]; simp))
    have hkey : nd.key = key := by
      simp [Mem.content, hnd] at hv
      exact hv.1
    have hpairs : pairs m ps = pairs m pre ++ (nd.key, nd.info) :: pairs m post := by
      rw [hsplit, pairs_append, pairs_cons hnd]
    have hle : ((pairs m ps).map Prod.fst).count key ≤ ps.length := by
      rw [← h.length_pairs]
      exact (List.count_le_length _ _).trans (le_of_eq (List.length_map _ _))
    have hcount : ((pairs m ps).map Prod.fst).count key
        = ((pairs m pre).map Prod.fst).count key + 1
          + ((pairs m post).map Prod.fst).count key := by
      rw [hpairs]
      simp [hkey, List.count_append]
      omega
    have hne0 : ((pairs m ps).map Prod.fst).count key ≠ 0 := by omega
    have hu := toUnsigned_of_nonneg (x := occ) (by omega) (by omega)
    have hnlt : ¬ ((pairs m ps).map Prod.fst).count key < toUnsigned occ := by omega
    simp [remove, hany, hhm, hne0, hnlt, hr]

end RemoveKey

/-! ## The claims -/

section Defects

variable {K I : Type}

/-- Claim C1, evaluated on the code: on the ring `[(a,1),(b,2),(c,3)]`, whose nodes are at
the addresses 1, 2, 3 with the anchor at 1, `remove` with a cursor on the node `(b,2)`, which
is not the anchor, moves the anchor to the node `(c,3)`, and the traversal read from the
anchor afterwards is `[(c,3),(a,1)]`, not `[(a,1),(c,3)]`. -/
theorem removeIt_moves_anchor :
    Ring ringABC 1 [1, 2, 3] ∧
    print 3 ringABC 1 = some [('a', 1), ('b', 2), ('c', 3)] ∧
    ringABC.content 2 = some ('b', 2) ∧
    (removeIt ringABC 1 2).map Prod.snd = some 3 ∧
    (removeIt ringABC 1 2).bind (fun s => print 3 s.1 s.2) = some [('c', 3), ('a', 1)] ∧
    (removeIt ringABC 1 2).bind (fun s => print 3 s.1 s.2) ≠ some [('a', 1), ('c', 3)] := by
  decide

/-- Claim C2, evaluated on the code: the rings `[(a,1)]` (node at address 1) and `[(a,2)]`
(node at address 2) have the same key and different values at their only position, and
`operator==` returns true for them and `operator!=` false: the loop compares
`travel2->info` with itself. -/
theorem eq_ignores_info :
    print 2 (twoRings ('a', 2)) 1 = some [('a', 1)] ∧
    print 2 (twoRings ('a', 2)) 2 = some [('a', 2)] ∧
    eq 2 (twoRings ('a', 2)) 1 2 = some true ∧
    ne 2 (twoRings ('a', 2)) 1 2 = some false := by
  decide

/-- Claim C4, evaluated on the code: with the ring `R = [(a,1)]` (node at address 1) and the
ring `D = [(d,0)]` (node at address 2), two distinct objects (`this` is 1 and `that` is 0
below), the assignment `D = R` has no defined result: it starts with `clear()` on `D`, and
`clear()` on a ring of one node deletes that node in its loop and then deletes it again
through `any`. -/
theorem assign_over_single_node :
    Ring (twoRings ('d', 0)) 1 [1] ∧
    print 2 (twoRings ('d', 0)) 1 = some [('a', 1)] ∧
    Ring (twoRings ('d', 0)) 2 [2] ∧
    print 2 (twoRings ('d', 0)) 2 = some [('d', 0)] ∧
    clear 5 (twoRings ('d', 0)) 2 = none ∧
    assign 5 (twoRings ('d', 0)) 1 0 2 1 = none := by
  decide

/-- Claim C6, evaluated on the code: on the ring `[(a,1),(b,2),(c,3)]` the call
`insertAfter(b, x, 9)` passes its three guards and ends in the call
`insertAfter(newKey, newInfo, iterator)`, which no overload of `insertAfter` accepts, so it
neither returns true nor inserts; the overload taking a cursor, given the cursor that `find`
returns and the new pair in the declared order, gives `[(a,1),(b,2),(x,9),(c,3)]`. -/
theorem insertAfter_key_call_unresolved :
    howMany 3 ringABC 1 'b' = some 1 ∧
    find 3 ringABC 1 'b' 1 = some 2 ∧
    insertAfter 3 ringABC 1 'b' 'x' 9 1 = none ∧
    (insertAfterIt ringABC 2 'x' 9).bind (fun s => print 4 s.1 1)
      = some [('a', 1), ('b', 2), ('x', 9), ('c', 3)] := by
  decide

/-- Claim C7, evaluated on the code: on the ring `[(a,1),(b,2),(c,3)]` the call
`insertBefore(b, x, 9)` passes its three guards and ends in the call
`insertBefore(newKey, newInfo, iterator)`, which no overload of `insertBefore` accepts, so
it neither returns true nor inserts; the overload taking a cursor, given the cursor that
`find` returns and the new pair in the declared order, gives `[(a,1),(x,9),(b,2),(c,3)]`. -/
theorem insertBefore_key_call_unresolved :
    howMany 3 ringABC 1 'b' = some 1 ∧
    find 3 ringABC 1 'b' 1 = some 2 ∧
    insertBefore 3 ringABC 1 'b' 'x' 9 1 = none ∧
    (insertBeforeIt ringABC 2 'x' 9).bind (fun s => print 4 s.1 1)
      = some [('a', 1), ('x', 9), ('b', 2), ('c', 3)] := by
  decide

end Defects

section PushBackClaim

variable {K I : Type}

/-- Claim C5: on a well-formed ring with nodes `ps` and traversal `pairs m ps` (possibly
empty), `pushBack(k, i)` returns, and the traversal read from the anchor afterwards is the
old one followed by `(k, i)`. The new node, at the address `m.fresh`, becomes the anchor if
the ring was empty; otherwise the anchor stays where it was. In both cases the new node is
the predecessor of the anchor and the anchor its successor, and `length()` is one more than
before, whatever keys the ring holds. -/
theorem pushBack_appends (m : Mem K I) (any : Nat) (ps : List Nat) (k : K) (i : I)
    (fuel : Nat) (h : Ring m any ps) (hf : ps.length < fuel)
    (hb : ps.length + 1 < 4294967296) :
    ∃ m' any', pushBack m any k i = some (m', any') ∧
      print fuel m any = some (pairs m ps) ∧
      print fuel m' any' = some (pairs m ps ++ [(k, i)]) ∧
      (any = 0 → any' = m.fresh) ∧ (any ≠ 0 → any' = any) ∧
      m.get m.fresh = none ∧ m'.content m.fresh = some (k, i) ∧
      m'.previousOf any' = some m.fresh ∧ m'.nextOf m.fresh = some any' ∧
      length fuel m any = some ps.length ∧
      length fuel m' any' = some (ps.length + 1) ∧
      Ring m' any' (ps ++ [m.fresh]) := by
  have hlen : (ps ++ [m.fresh]).length = ps.length + 1 := by simp
  by_cases hl : ps = []
  · subst hl
    have h0 : any = 0 := (ring_nil m any).1 h
    subst h0
    obtain ⟨m', hpb, hring, hpairs, hcont, _⟩ := pushBack_empty m k i
    have hlink := ((ring_iff (List.cons_ne_nil _ _)).1 hring).2.2.2
    refine ⟨m', m.fresh, hpb, print_spec h (Nat.zero_le _), ?_, fun _ => rfl,
      fun hne => absurd rfl hne, get_fresh m, hcont, hlink.2, hlink.1,
      length_spec h (Nat.zero_le _) (by simp), ?_, hring⟩
    · rw [print_spec hring (by simpa using hf), hpairs, pairs_nil]
      rfl
    · rw [length_spec hring (by simpa using hf) (by simp)]
      rfl
  · have hany : any ≠ 0 := fun h0 => hl (h.any_eq_zero_iff.1 h0)
    obtain ⟨m', hpb, hring, hpairs, hcont, hprev, _⟩ := pushBack_nonempty h hl k i
    have hl2 : ps ++ [m.fresh] ≠ [] := by simp
    have hlink := ((ring_iff hl2).1 hring).2.2.2
    have hhead := ((ring_iff hl2).1 hring).1
    rw [List.getLast_append_singleton, ← hhead] at hlink
    refine ⟨m', any, hpb, print_spec h (le_of_lt hf), ?_, fun h0 => absurd h0 hany,
      fun _ => rfl, get_fresh m, hcont, hprev, hlink.1,
      length_spec h (le_of_lt hf) (by omega), ?_, hring⟩
    · rw [print_spec hring (by rw [hlen]; omega), hpairs]
    · rw [length_spec hring (by rw [hlen]; omega) (by rw [hlen]; omega), hlen]

/-- Witness for claim C5: `pushBack(c, 3)` on the ring `[(a,1),(b,2)]`, and the three
calls `pushBack(a,1); pushBack(b,2); pushBack(c,3)` from the empty ring, which give the
traversal `[(a,1),(b,2),(c,3)]` with the anchor on the node holding `(a,1)`. -/
theorem pushBack_appends_witness :
    (Ring ringAB 1 [1, 2] ∧
      ∃ m' any', pushBack ringAB 1 'c' 3 = some (m', any') ∧
        print 3 ringAB 1 = some (pairs ringAB [1, 2]) ∧
        print 3 m' any' = some (pairs ringAB [1, 2] ++ [('c', 3)]) ∧
        ((1 : Nat) = 0 → any' = ringAB.fresh) ∧
        ((1 : Nat) ≠ 0 → any' = 1) ∧
        ringAB.get ringAB.fresh = none ∧
        m'.content ringAB.fresh = some ('c', 3) ∧
        m'.previousOf any' = some ringAB.fresh ∧
        m'.nextOf ringAB.fresh = some any' ∧
        length 3 ringAB 1 = some [1, 2].length ∧
        length 3 m' any' = some ([1, 2].length + 1) ∧
        Ring m' any' ([1, 2] ++ [ringAB.fresh])) ∧
    (build [('a', 1), ('b', 2), ('c', 3)] (Mem.empty Char Nat, 0)).bind
        (fun s => print 3 s.1 s.2) = some [('a', 1), ('b', 2), ('c', 3)] ∧
    (build [('a', 1), ('b', 2), ('c', 3)] (Mem.empty Char Nat, 0)).bind
        (fun s => s.1.content s.2) = some ('a', 1) :=
  ⟨⟨by decide, pushBack_appends ringAB 1 [1, 2] 'c' 3 3
      (by decide) (by decide) (by decide)⟩, by decide, by decide⟩

end PushBackClaim

section FindAndAnchor

variable {K I : Type}

theorem pairs_cons_content {m : Mem K I} {p : Nat} {kv : K × I} (h : m.content p = some kv)
    (ps : List Nat) : pairs m (p :: ps) = kv :: pairs m ps := by
  simp [pairs, h]

theorem length_pairs_of_live {m : Mem K I} {ps : List Nat}
    (h : ∀ p ∈ ps, (m.get p).isSome) : (pairs m ps).length = ps.length := by
  have := congrArg List.length (pairs_eq_map h)
  simpa using this

/-- Claim C8: on a well-formed ring and for `occurrence >= 1`, `find(key, occurrence)`
returns; the result is the null cursor exactly when the ring is empty or fewer than
`occurrence` nodes hold `key`; otherwise it is the node `r` at which the traversal splits
as `L1 ++ (key, v) :: L2` with exactly `occurrence - 1` pairs of `L1` holding `key`, that
is, the `occurrence`-th node with that key counted from the anchor. -/
theorem find_occurrence [DecidableEq K] (m : Mem K I) (any : Nat) (ps : List Nat) (key : K)
    (occ : Int) (fuel : Nat) (h : Ring m any ps) (hf : ps.length ≤ fuel)
    (hb : ps.length < 2147483648) (ho : 1 ≤ occ) :
    ∃ r, find fuel m any key occ = some r ∧
      (r = 0 ↔ (any = 0 ∨ ((((pairs m ps).map Prod.fst).count key : Nat) : Int) < occ)) ∧
      (r ≠ 0 → ∃ pre post v, ps = pre ++ r :: post ∧ m.content r = some (key, v) ∧
        pairs m ps = pairs m pre ++ (key, v) :: pairs m post ∧
        ((((pairs m pre).map Prod.fst).count key : Nat) : Int) + 1 = occ) := by
  obtain ⟨r, hr, hcase⟩ := find_spec h hf hb key ho
  refine ⟨r, hr, ?_, ?_⟩
  · rcases hcase with ⟨h0, hlt⟩ | ⟨pre, post, v, hsplit, hv, hcnt⟩
    · exact ⟨fun _ => Or.inr hlt, fun _ => h0⟩
    · have hr0 : r ≠ 0 := h.ne_zero (by rw [hsplit]; simp)
      have hany : any ≠ 0 := by
        intro h0
        rw [h.any_eq_zero_iff.1 h0] at hsplit
        simp at hsplit
      have hpairs : pairs m ps = pairs m pre ++ (key, v) :: pairs m post := by
        rw [hsplit, pairs_append, pairs_cons_content hv]
      constructor
      · intro h0
        exact absurd h0 hr0
      · rintro (h0 | hlt)
        · exact absurd h0 hany
        · rw [hpairs] at hlt
          simp [List.count_append] at hlt
          omega
  · intro hr0
    rcases hcase with ⟨h0, _⟩ | ⟨pre, post, v, hsplit, hv, hcnt⟩
    · exact absurd h0 hr0
    · exact ⟨pre, post, v, hsplit, hv, by rw [hsplit, pairs_append, pairs_cons_content hv], hcnt⟩

/-- Witness for claim C8: on the ring `[(a,1),(b,2),(a,3),(a,4)]`, whose nodes are at the
addresses 1 to 4, `find(a, 2)` is the node at address 3, which holds `(a,3)`, and
`find(a, 4)` is the null cursor. -/
theorem find_occurrence_witness :
    (Ring ringABAA 1 [1, 2, 3, 4] ∧
      ∃ r, find 4 ringABAA 1 'a' 2 = some r ∧
        (r = 0 ↔ ((1 : Nat) = 0 ∨
          ((((pairs ringABAA [1, 2, 3, 4]).map Prod.fst).count 'a' : Nat) : Int) < 2)) ∧
        (r ≠ 0 → ∃ pre post v, [1, 2, 3, 4] = pre ++ r :: post ∧
          ringABAA.content r = some ('a', v) ∧
          pairs ringABAA [1, 2, 3, 4] = pairs ringABAA pre ++ ('a', v) :: pairs ringABAA post ∧
          ((((pairs ringABAA pre).map Prod.fst).count 'a' : Nat) : Int) + 1 = 2)) ∧
    find 4 ringABAA 1 'a' 2 = some 3 ∧
    ringABAA.content 3 = some ('a', 3) ∧
    find 4 ringABAA 1 'a' 4 = some 0 :=
  ⟨⟨by decide, find_occurrence ringABAA 1 [1, 2, 3, 4] 'a' 2 4
      (by decide) (by decide) (by decide) (by decide)⟩,
    by decide, by decide, by decide⟩

/-- Claim C3: on a well-formed ring with at least two nodes, removing the node the anchor
is on, by a cursor on it or by `remove(key, occurrence)` whose `find` is the anchor node,
returns and moves the anchor to the successor of the removed node; the traversal read
afterwards is the old one without its first pair, and `length()` is one less. -/
theorem remove_anchor_node [DecidableEq K] (m : Mem K I) (any : Nat) (ps : List Nat)
    (fuel : Nat) (h : Ring m any ps) (h2 : 2 ≤ ps.length) (hf : ps.length ≤ fuel)
    (hb : ps.length < 2147483648) :
    ∃ m' any', removeIt m any any = some (m', any') ∧
      m.nextOf any = some any' ∧
      print fuel m any = some (pairs m ps) ∧
      print fuel m' any' = some (pairs m ps).tail ∧
      length fuel m any = some ps.length ∧
      length fuel m' any' = some (ps.length - 1) ∧
      Ring m' any' ps.tail ∧
      (∀ (key : K) (occ : Int), 1 ≤ occ → find fuel m any key occ = some any →
        remove fuel m any key occ = some (m', any')) := by
  cases ps with
  | nil => simp at h2
  | cons a t =>
    have ha : any = a := ((ring_cons m any a t).1 h).1
    subst ha
    have hany : any ≠ 0 := h.ne_zero (List.mem_cons_self _ _)
    have ht : t ≠ [] := by
      intro e
      simp [e] at h2
    have h' : Ring m any ([] ++ any :: t) := h
    obtain ⟨m', any', hr, hany', hring, hp, _, _⟩ := removeIt_ring h'
    simp only [List.append_nil] at hany' hring hp
    obtain ⟨nd, hnd⟩ := Option.isSome_iff_exists.1 (h.isSome_get (List.mem_cons_self _ _))
    have hnext : m.nextOf any = some any' := by
      have hc := (List.chain'_cons'.1 ((ring_iff (List.cons_ne_nil any t)).1 h).2.2.1).1
      cases t with
      | nil => exact absurd rfl ht
      | cons s r =>
        rw [hany']
        exact (hc s (by simp)).1
    simp only [List.length_cons] at hf hb
    refine ⟨m', any', hr, hnext, print_spec h (by simpa using hf), ?_,
      length_spec h (by simpa using hf) (by simp; omega), ?_, hring, ?_⟩
    · rw [print_spec hring (by omega), hp, pairs_cons hnd]
      rfl
    · rw [length_spec hring (by omega) (by omega)]
      simp
    · intro key occ ho hfind
      rw [remove_eq_removeIt h (by simpa using hf) (by simp; omega) key ho hfind hany, hr]

/-- Witness for claim C3: on `[(a,1),(b,2),(c,3)]`, `remove(a, 1)` gives the ring
`[(b,2),(c,3)]` of length 2 with the anchor on the node holding `(b,2)`. -/
theorem remove_anchor_node_witness :
    (Ring ringABC 1 [1, 2, 3] ∧
      ∃ m' any', removeIt ringABC 1 1 = some (m', any') ∧
        ringABC.nextOf 1 = some any' ∧
        print 3 ringABC 1 = some (pairs ringABC [1, 2, 3]) ∧
        print 3 m' any' = some (pairs ringABC [1, 2, 3]).tail ∧
        length 3 ringABC 1 = some [1, 2, 3].length ∧
        length 3 m' any' = some ([1, 2, 3].length - 1) ∧
        Ring m' any' [1, 2, 3].tail ∧
        (∀ (key : Char) (occ : Int), 1 ≤ occ → find 3 ringABC 1 key occ = some 1 →
          remove 3 ringABC 1 key occ = some (m', any'))) ∧
    (remove 3 ringABC 1 'a' 1).bind (fun s => print 3 s.1 s.2) = some [('b', 2), ('c', 3)] ∧
    (remove 3 ringABC 1 'a' 1).bind (fun s => length 3 s.1 s.2) = some 2 ∧
    (remove 3 ringABC 1 'a' 1).bind (fun s => s.1.content s.2) = some ('b', 2) :=
  ⟨⟨by decide, remove_anchor_node ringABC 1 [1, 2, 3] 3
      (by decide) (by decide) (by decide) (by decide)⟩, by decide, by decide, by decide⟩

end FindAndAnchor

section RemoveByKey

variable {K I : Type}

/-- Claim C9: on a well-formed ring and for `1 <= occurrence <= howMany(key)`,
`remove(key, occurrence)` returns and removes exactly one node, the `occurrence`-th one
holding `key` counted from the anchor: the traversal before is `L1 ++ (key, v) :: L2` with
`occurrence - 1` pairs of `L1` holding `key`, the traversal after is `L2 ++ L1`, so the pairs
left are the previous ones minus `(key, v)`; `length()` and `howMany(key)` drop by one and
`howMany(k)` is unchanged for every other key `k`. -/
theorem remove_key_one_node [DecidableEq K] (m : Mem K I) (any : Nat) (ps : List Nat)
    (key : K) (occ : Int) (fuel c : Nat) (h : Ring m any ps) (hf : ps.length ≤ fuel)
    (hb : ps.length < 2147483648) (hc : howMany fuel m any key = some c) (ho1 : 1 ≤ occ)
    (ho2 : occ ≤ c) :
    ∃ m' any' L1 v L2 ps',
      print fuel m any = some (L1 ++ (key, v) :: L2) ∧
      (((L1.map Prod.fst).count key : Nat) : Int) + 1 = occ ∧
      remove fuel m any key occ = some (m', any') ∧
      Ring m' any' ps' ∧
      print fuel m' any' = some (L2 ++ L1) ∧
      ((key, v) :: (L2 ++ L1)).Perm (L1 ++ (key, v) :: L2) ∧
      length fuel m any = some (L1.length + L2.length + 1) ∧
      length fuel m' any' = some (L1.length + L2.length) ∧
      howMany fuel m' any' key = some (c - 1) ∧
      (∀ k, k ≠ key → howMany fuel m' any' k = howMany fuel m any k) := by
  have hhm := howMany_spec h hf (by omega) key
  rw [hc] at hhm
  have hceq : c = ((pairs m ps).map Prod.fst).count key := Option.some.inj hhm
  obtain ⟨r, hfind, hcase⟩ := find_spec h hf hb key ho1
  rcases hcase with ⟨_, hlt⟩ | ⟨pre, post, v, hsplit, hv, hcnt⟩
  · omega
  · subst hsplit
    have hr0 : r ≠ 0 := h.ne_zero (by simp)
    obtain ⟨m', any', hr, _, hring, hp, _, _⟩ := removeIt_ring h
    have hpairs : pairs m (pre ++ r :: post) = pairs m pre ++ (key, v) :: pairs m post := by
      rw [pairs_append, pairs_cons_content hv]
    have hlen1 : (pairs m pre).length = pre.length :=
      length_pairs_of_live (fun p hp => h.isSome_get (by simp [hp]))
    have hlen2 : (pairs m post).length = post.length :=
      length_pairs_of_live (fun p hp => h.isSome_get (by simp [hp]))
    have hlen : (pre ++ r :: post).length = pre.length + post.length + 1 := by
      simp
      omega
    have hlen' : (post ++ pre).length = pre.length + post.length := by
      simp
      omega
    have hp' : pairs m' (post ++ pre) = pairs m post ++ pairs m pre := by
      rw [hp, pairs_append]
    refine ⟨m', any', pairs m pre, v, pairs m post, post ++ pre, ?_, hcnt, ?_, hring, ?_, ?_,
      ?_, ?_, ?_, ?_⟩
    · rw [print_spec h hf, hpairs]
    · rw [remove_eq_removeIt h hf hb key ho1 hfind hr0, hr]
    · rw [print_spec hring (by omega), hp']
    · exact (List.perm_middle.trans
        (List.Perm.cons _ List.perm_append_comm)).symm
    · rw [length_spec h hf (by omega), hlen, hlen1, hlen2]
    · rw [length_spec hring (by omega) (by omega), hlen', hlen1, hlen2]
    · rw [howMany_spec hring (by omega) (by omega) key, hp', hceq, hpairs]
      simp [List.count_append]
      omega
    · intro k hk
      rw [howMany_spec hring (by omega) (by omega) k, howMany_spec h hf (by omega) k, hp',
        hpairs]
      have hk' : ¬ (key = k) := fun e => hk e.symm
      simp [List.count_append, List.count_cons, hk']
      omega

/-- Witness for claim C9: `remove(a, 2)` on the ring `[(a,1),(b,2),(a,3),(a,4)]`, which
leaves the pairs `(a,4)`, `(a,1)`, `(b,2)`. -/
theorem remove_key_one_node_witness :
    (Ring ringABAA 1 [1, 2, 3, 4] ∧
      howMany 4 ringABAA 1 'a' = some 3 ∧
      ∃ m' any' L1 v L2 ps',
        print 4 ringABAA 1 = some (L1 ++ ('a', v) :: L2) ∧
        (((L1.map Prod.fst).count 'a' : Nat) : Int) + 1 = 2 ∧
        remove 4 ringABAA 1 'a' 2 = some (m', any') ∧
        Ring m' any' ps' ∧
        print 4 m' any' = some (L2 ++ L1) ∧
        (('a', v) :: (L2 ++ L1)).Perm (L1 ++ ('a', v) :: L2) ∧
        length 4 ringABAA 1 = some (L1.length + L2.length + 1) ∧
        length 4 m' any' = some (L1.length + L2.length) ∧
        howMany 4 m' any' 'a' = some (3 - 1) ∧
        (∀ k, k ≠ 'a' → howMany 4 m' any' k = howMany 4 ringABAA 1 k)) ∧
    (remove 4 ringABAA 1 'a' 2).bind (fun s => print 4 s.1 s.2)
      = some [('a', 4), ('a', 1), ('b', 2)] :=
  ⟨⟨by decide, by decide,
      remove_key_one_node ringABAA 1 [1, 2, 3, 4] 'a' 2 4 3
        (by decide) (by decide) (by decide) (by decide) (by decide) (by decide)⟩,
    by decide⟩

/-- Claim C10: on a well-formed ring and for `occurrence >= 1`, `remove(key, occurrence)`
called when the ring is empty, when no node holds `key`, or when `occurrence` exceeds
`howMany(key)` returns without any mutation: the store and the anchor are the ones before
the call, and so are the traversal and `length()`. -/
theorem remove_key_no_mutation [DecidableEq K] (m : Mem K I) (any : Nat) (ps : List Nat)
    (key : K) (occ : Int) (fuel : Nat) (h : Ring m any ps) (hf : ps.length ≤ fuel)
    (hb : ps.length < 2147483648) (ho1 : 1 ≤ occ) (ho2 : occ < 2147483648)
    (hfail : any = 0 ∨ (∀ kv ∈ pairs m ps, kv.1 ≠ key) ∨
      ∃ c, howMany fuel m any key = some c ∧ (c : Int) < occ) :
    ∃ m' any', remove fuel m any key occ = some (m', any') ∧ m' = m ∧ any' = any ∧
      print fuel m' any' = print fuel m any ∧ length fuel m' any' = length fuel m any := by
  refine ⟨m, any, ?_, rfl, rfl, rfl, rfl⟩
  by_cases hany : any = 0
  · simp [remove, hany]
  · have hhm := howMany_spec h hf (by omega) key
    have hu := toUnsigned_of_nonneg (x := occ) (by omega) (by omega)
    rcases hfail with h0 | hno | ⟨c, hc, hlt⟩
    · exact absurd h0 hany
    · have hzero : ((pairs m ps).map Prod.fst).count key = 0 := by
        rw [List.count_eq_zero]
        intro hmem
        obtain ⟨kv, hkv, hk⟩ := List.mem_map.1 hmem
        exact hno kv hkv hk
      simp [remove, hany, hhm, hzero]
    · rw [hhm] at hc
      have hceq := Option.some.inj hc
      by_cases hz : ((pairs m ps).map Prod.fst).count key = 0
      · simp [remove, hany, hhm, hz]
      · have hlt' : ((pairs m ps).map Prod.fst).count key < toUnsigned occ := by omega
        simp [remove, hany, hhm, hz, hlt']

/-- Witness for claim C10: `remove(a, 4)` on the ring `[(a,1),(b,2),(a,3),(a,4)]`, where
`howMany(a)` is 3. -/
theorem remove_key_no_mutation_witness :
    Ring ringABAA 1 [1, 2, 3, 4] ∧
    howMany 4 ringABAA 1 'a' = some 3 ∧
    ∃ m' any', remove 4 ringABAA 1 'a' 4 = some (m', any') ∧
      m' = ringABAA ∧ any' = 1 ∧
      print 4 m' any' = print 4 ringABAA 1 ∧
      length 4 m' any' = length 4 ringABAA 1 :=
  ⟨by decide, by decide,
    remove_key_no_mutation ringABAA 1 [1, 2, 3, 4] 'a' 4 4
      (by decide) (by decide) (by decide) (by decide) (by decide)
      (Or.inr (Or.inr ⟨3, by decide, by decide⟩))⟩

end RemoveByKey

section Clear

variable {K I : Type}

theorem clearLoop_spec (any : Nat) :
    ∀ (rest : List Nat) (p fuel : Nat) (m : Mem K I),
      List.Chain (fun a b => m.nextOf a = some b) p (rest ++ [any]) → (p :: rest).Nodup →
      any ∉ rest → rest.length < fuel →
      ∃ m', clearLoop any fuel m p = some m' ∧
        ∀ q, m'.get q = if q ∈ p :: rest then none else m.get q := by
  intro rest
  induction rest with
  | nil =>
    intro p fuel m hc _ _ hf
    obtain ⟨f, rfl⟩ : ∃ f, fuel = f + 1 := ⟨fuel - 1, by simp at hf; omega⟩
    simp only [List.nil_append, List.chain_cons] at hc
    obtain ⟨nd, hnd, hnx⟩ := nextOf_eq_some.1 hc.1
    obtain ⟨m1, h1, hg1⟩ := free_spec m p (by simp [hnd])
    refine ⟨m1, by simp [clearLoop, hnd, h1, hnx], ?_⟩
    intro q
    simp [hg1]
  | cons q rest ih =>
    intro p fuel m hc hnd hany hf
    obtain ⟨f, rfl⟩ : ∃ f, fuel = f + 1 := ⟨fuel - 1, by simp at hf; omega⟩
    simp only [List.cons_append, List.chain_cons] at hc
    obtain ⟨nd, hgp, hnx⟩ := nextOf_eq_some.1 hc.1
    have hq : q ≠ any := fun h => hany (by simp [h])
    have hany2 : any ∉ rest := fun h => hany (List.mem_cons_of_mem _ h)
    have hp : p ∉ q :: rest := (List.nodup_cons.1 hnd).1
    obtain ⟨m1, h1, hg1⟩ := free_spec m p (by simp [hgp])
    have hc1 : List.Chain (fun a b => m1.nextOf a = some b) q (rest ++ [any]) := by
      have hc' : List.Chain' (fun a b => m.nextOf a = some b) (q :: (rest ++ [any])) := hc.2
      apply chain'_imp_pos _ hc'
      intro a b ha _ hab
      have hd : (q :: (rest ++ [any])).dropLast = q :: rest := by
        rw [← List.cons_append, List.dropLast_concat]
      rw [hd] at ha
      have hap : a ≠ p := fun e => hp (e ▸ ha)
      rw [Mem.nextOf, hg1, if_neg hap]
      exact hab
    simp at hf
    obtain ⟨m', hr, hg⟩ := ih q f m1 hc1 (List.nodup_cons.1 hnd).2 hany2 (by omega)
    refine ⟨m', by simp [clearLoop, hgp, h1, hnx, hq, hr], ?_⟩
    intro x
    rw [hg, hg1]
    by_cases hx : x = p
    · simp [hx]
    · by_cases hx2 : x ∈ q :: rest
      · simp [hx2]
      · simp only [if_neg hx2, if_neg hx]
        have : x ∉ p :: q :: rest := by
          simp only [List.mem_cons, not_or] at hx2 ⊢
          exact ⟨hx, hx2⟩
        rw [if_neg this]

/-- On the empty ring `clear()` changes nothing. -/
theorem clear_empty (fuel : Nat) (m : Mem K I) : clear fuel m 0 = some (m, 0) := by
  simp [clear]

/-- On a ring of two or more nodes `clear()` returns with the ring empty: every node of
the ring is deleted, each once, and no other node is touched. -/
theorem clear_spec {m : Mem K I} {any : Nat} {ps : List Nat} (h : Ring m any ps)
    (h2 : 2 ≤ ps.length) {fuel : Nat} (hf : ps.length ≤ fuel) :
    ∃ m', clear fuel m any = some (m', 0) ∧ Ring m' 0 [] ∧
      ∀ q, m'.get q = if q ∈ ps then none else m.get q := by
  cases ps with
  | nil => simp at h2
  | cons a t =>
    cases t with
    | nil => simp at h2
    | cons s r =>
      obtain ⟨ha, hnd, hc⟩ := (ring_cons m any a (s :: r)).1 h
      subst ha
      have hany : any ≠ 0 := h.ne_zero (List.mem_cons_self _ _)
      obtain ⟨hcn, hnt⟩ := h.nextChain
      simp only [List.cons_append, List.chain_cons] at hcn
      obtain ⟨nd, hga, hnx⟩ := nextOf_eq_some.1 hcn.1
      simp only [List.length_cons] at hf
      obtain ⟨m1, hr, hg⟩ := clearLoop_spec any r s fuel m hcn.2 (List.nodup_cons.1 hnd).2
        (fun hm => hnt (List.mem_cons_of_mem _ hm)) (by omega)
      have hlive : (m1.get any).isSome := by
        rw [hg, if_neg hnt, hga]
        rfl
      obtain ⟨m2, h2', hg2⟩ := free_spec m1 any hlive
      refine ⟨m2, by simp [clear, hany, hga, hnx, hr, h2'], (ring_nil _ _).2 rfl, ?_⟩
      intro q
      rw [hg2, hg]
      by_cases hq : q = any
      · simp [hq]
      · by_cases hq2 : q ∈ s :: r
        · simp [hq2]
        · have : q ∉ any :: s :: r := by
            simp only [List.mem_cons, not_or] at hq2 ⊢
            exact ⟨hq, hq2⟩
          rw [if_neg hq, if_neg hq2, if_neg this]

/-- On every ring of exactly one node `clear()` deletes that node twice. -/
theorem clear_single {m : Mem K I} {any x : Nat} (h : Ring m any [x]) {fuel : Nat}
    (hf : 1 ≤ fuel) : clear fuel m any = none := by
  obtain ⟨ha, _, hc⟩ := (ring_cons m any x []).1 h
  subst ha
  have hany : any ≠ 0 := h.ne_zero (List.mem_cons_self _ _)
  obtain ⟨hcn, _⟩ := h.nextChain
  obtain ⟨nd, hga, hnx⟩ := nextOf_eq_some.1 (List.chain_cons.1 hcn).1
  obtain ⟨m1, hr, hg⟩ := clearLoop_spec any [] any fuel m hcn (List.nodup_singleton _)
    (List.not_mem_nil _) (by simpa using hf)
  have hdead : m1.get any = none := by simp [hg]
  simp [clear, hany, hga, hnx, hr, free_eq_none m1 any hdead]

end Clear

section KeyCalls

variable {K I : Type}

/-- The call at the end of `insertAfter(key, ...)` has no viable overload. -/
theorem callInsertAfter_key_info_iterator (m : Mem K I) (newKey : K) (newInfo : I)
    (iterator : Nat) :
    callInsertAfter m (Arg.key newKey) (Arg.info newInfo) (Arg.iterator iterator) = none := rfl

/-- The call at the end of `insertBefore(key, ...)` has no viable overload. -/
theorem callInsertBefore_key_info_iterator (m : Mem K I) (newKey : K) (newInfo : I)
    (iterator : Nat) :
    callInsertBefore m (Arg.key newKey) (Arg.info newInfo) (Arg.iterator iterator) = none := rfl

/-- No call of `insertAfter(key, ...)` has a result. -/
theorem insertAfter_key_none [DecidableEq K] (fuel : Nat) (m : Mem K I) (any : Nat)
    (key newKey : K) (newInfo : I) (occ : Int) :
    insertAfter fuel m any key newKey newInfo occ = none := by
  simp [insertAfter, viableInsertCall]

/-- No call of `insertBefore(key, ...)` has a result. -/
theorem insertBefore_key_none [DecidableEq K] (fuel : Nat) (m : Mem K I) (any : Nat)
    (key newKey : K) (newInfo : I) (occ : Int) :
    insertBefore fuel m any key newKey newInfo occ = none := by
  simp [insertBefore, viableInsertCall]

theorem toUnsigned_of_neg {x : Int} (h0 : x < 0) (h1 : -2147483648 ≤ x) :
    (toUnsigned x : Int) = x + 4294967296 := by
  unfold toUnsigned
  have h : x % 4294967296 = x + 4294967296 := by omega
  rw [h]
  exact Int.toNat_of_nonneg (by omega)

theorem toUnsigned_zero : toUnsigned 0 = 0 := rfl

theorem findLoop_not_found [DecidableEq K] (m : Mem K I) (any : Nat) (aKey : K) (occ : Int) :
    ∀ (rest : List Nat) (p fuel : Nat) (i : Int),
      List.Chain (fun a b => m.nextOf a = some b) p (rest ++ [any]) → any ∉ rest →
      rest.length < fuel → occ ≤ i →
      i + (((pairs m (p :: rest)).map Prod.fst).count aKey : Nat) < 2147483648 →
      findLoop m any aKey occ fuel p i = some 0 := by
  intro rest
  induction rest with
  | nil =>
    intro p fuel i hc _ hf hi hb
    obtain ⟨f, rfl⟩ : ∃ f, fuel = f + 1 := ⟨fuel - 1, by simp at hf; omega⟩
    simp only [List.nil_append, List.chain_cons] at hc
    obtain ⟨nd, hnd, hnx⟩ := nextOf_eq_some.1 hc.1
    rw [pairs_cons hnd] at hb
    by_cases hk : nd.key = aKey
    · simp [pairs_nil, hk] at hb
      have hov : ¬ (2147483647 < i + 1) := by omega
      have ho : ¬ (i + 1 = occ) := by omega
      simp [findLoop, hnd, hnx, hk, hov, ho]
    · simp [findLoop, hnd, hnx, hk]
  | cons q rest ih =>
    intro p fuel i hc hany hf hi hb
    obtain ⟨f, rfl⟩ : ∃ f, fuel = f + 1 := ⟨fuel - 1, by simp at hf; omega⟩
    simp only [List.cons_append, List.chain_cons] at hc
    obtain ⟨nd, hnd, hnx⟩ := nextOf_eq_some.1 hc.1
    have hq : q ≠ any := fun h => hany (by simp [h])
    have hany2 : any ∉ rest := fun h => hany (List.mem_cons_of_mem _ h)
    rw [pairs_cons hnd] at hb
    simp at hf
    by_cases hk : nd.key = aKey
    · simp [hk] at hb
      have hov : ¬ (2147483647 < i + 1) := by omega
      have ho : ¬ (i + 1 = occ) := by omega
      have hrec := ih q f (i + 1) hc.2 hany2 (by omega) (by omega) (by omega)
      simp [findLoop, hnd, hnx, hk, hov, ho, hq, hrec]
    · simp [hk, List.count_cons] at hb
      have hrec := ih q f i hc.2 hany2 (by omega) hi (by omega)
      simp [findLoop, hnd, hnx, hk, hq, hrec]

/-- For an occurrence that is zero or negative `find` returns the null cursor. -/
theorem find_nonpos [DecidableEq K] {m : Mem K I} {any : Nat} {ps : List Nat}
    (h : Ring m any ps) {fuel : Nat} (hf : ps.length ≤ fuel) (hb : ps.length < 2147483648)
    (aKey : K) {occ : Int} (ho : occ ≤ 0) : find fuel m any aKey occ = some 0 := by
  cases ps with
  | nil => simp [find, (ring_nil m any).1 h]
  | cons a t =>
    have ha : any = a := ((ring_cons m any a t).1 h).1
    have h0 : a ≠ 0 := h.ne_zero (List.mem_cons_self a t)
    obtain ⟨hc, hnt⟩ := h.nextChain
    have hle : ((pairs m (a :: t)).map Prod.fst).count aKey ≤ (a :: t).length := by
      rw [← h.length_pairs]
      exact (List.count_le_length _ _).trans (le_of_eq (List.length_map _ _))
    subst ha
    simp only [find, if_neg h0]
    exact findLoop_not_found m any aKey occ t any fuel 0 hc hnt (by simpa using hf) ho
      (by omega)

/-- For an occurrence that is zero or negative `remove(key, occurrence)` changes nothing. -/
theorem remove_nonpos [DecidableEq K] {m : Mem K I} {any : Nat} {ps : List Nat}
    (h : Ring m any ps) {fuel : Nat} (hf : ps.length ≤ fuel) (hb : ps.length < 2147483648)
    (key : K) {occ : Int} (ho : occ ≤ 0) :
    remove fuel m any key occ = some (m, any) := by
  have hhm := howMany_spec h hf (by omega) key
  have hfind := find_nonpos h hf hb key ho
  by_cases hany : any = 0
  · simp [remove, hany]
  · by_cases hz : ((pairs m ps).map Prod.fst).count key = 0
    · simp [remove, hany, hhm, hz]
    · by_cases hlt : ((pairs m ps).map Prod.fst).count key < toUnsigned occ
      · simp [remove, hany, hhm, hz, hlt]
      · simp [remove, hany, hhm, hz, hlt, hfind, removeIt]

/-- With a cursor on the anchor, `insertBefore(cursor, ...)` runs the assignments of
`pushBack`. -/
theorem insertBeforeIt_any (m : Mem K I) {any : Nat} (hany : any ≠ 0) (k : K) (i : I) :
    insertBeforeIt m any k i = (pushBack m any k i).map (fun s => (s.1, true)) := by
  simp only [insertBeforeIt, pushBack, if_neg hany]
  cases h1 : (m.alloc k i).1.setNext (m.alloc k i).2 any with
  | none => simp
  | some m1 =>
    cases ha1 : m1.get any with
    | none => simp [ha1]
    | some a1 =>
      cases h2 : m1.setPrevious (m.alloc k i).2 a1.previous with
      | none => simp [ha1, h2]
      | some m2 =>
        cases ha2 : m2.get any with
        | none => simp [ha1, h2, ha2]
        | some a2 =>
          cases h3 : m2.setNext a2.previous (m.alloc k i).2 with
          | none => simp [ha1, h2, ha2, h3]
          | some m3 =>
            cases h4 : m3.setPrevious any (m.alloc k i).2 with
            | none => simp [ha1, h2, ha2, h3, h4]
            | some m4 => simp [ha1, h2, ha2, h3, h4]

/-- On a well-formed non-empty ring `insertBefore` with a cursor on the anchor returns true,
leaves the anchor where it is and appends the new pair to the traversal, as `pushBack`
does. -/
theorem insertBeforeIt_anchor {m : Mem K I} {any : Nat} {ps : List Nat} (h : Ring m any ps)
    (hl : ps ≠ []) (k : K) (i : I) :
    ∃ m', insertBeforeIt m any k i = some (m', true) ∧ pushBack m any k i = some (m', any) ∧
      Ring m' any (ps ++ [m.fresh]) ∧ pairs m' (ps ++ [m.fresh]) = pairs m ps ++ [(k, i)] := by
  have hany : any ≠ 0 := fun h0 => hl (h.any_eq_zero_iff.1 h0)
  obtain ⟨m', hpb, hring, hp, _⟩ := pushBack_nonempty h hl k i
  exact ⟨m', by rw [insertBeforeIt_any m hany, hpb]; rfl, hpb, hring, hp⟩

end KeyCalls

section Frames

variable {K I : Type}

theorem content_congr {m m' : Mem K I} {q : Nat} (h : m'.get q = m.get q) :
    m'.content q = m.content q := by
  simp [Mem.content, h]

/-- A ring, and its traversal, depend on the nodes of the ring only. -/
theorem ring_congr {m m' : Mem K I} {any : Nat} {ps : List Nat}
    (hg : ∀ q ∈ ps, m'.get q = m.get q) (h : Ring m any ps) :
    Ring m' any ps ∧ pairs m' ps = pairs m ps := by
  refine ⟨⟨h.1, h.2.1, ?_⟩, pairs_congr (fun p hp => content_congr (hg p hp))⟩
  apply chain'_imp_pos _ h.2.2
  intro p q hp hq hl
  have hp' : p ∈ ps := by
    have := List.dropLast_subset _ hp
    rcases List.mem_append.1 this with h1 | h1
    · exact h1
    · exact List.mem_of_mem_take h1
  have hq' : q ∈ ps := by
    have := List.mem_of_mem_tail hq
    rcases List.mem_append.1 this with h1 | h1
    · exact h1
    · exact List.mem_of_mem_take h1
  exact ⟨by rw [Mem.nextOf, hg p hp']; exact hl.1, by rw [Mem.previousOf, hg q hq']; exact hl.2⟩

/-- Method `pushBack` on a well-formed ring, empty or not. -/
theorem pushBack_ring {m : Mem K I} {any : Nat} {ps : List Nat} (h : Ring m any ps)
    (k : K) (i : I) :
    ∃ m' any', pushBack m any k i = some (m', any') ∧ Ring m' any' (ps ++ [m.fresh]) ∧
      pairs m' (ps ++ [m.fresh]) = pairs m ps ++ [(k, i)] ∧
      (∀ q, q ∉ ps → q ≠ m.fresh → m'.get q = m.get q) := by
  by_cases hl : ps = []
  · subst hl
    have h0 : any = 0 := (ring_nil m any).1 h
    subst h0
    obtain ⟨m', hpb, hring, hp, _, hframe⟩ := pushBack_empty m k i
    exact ⟨m', m.fresh, hpb, hring, by simpa [pairs_nil] using hp, fun q _ hq => hframe q hq⟩
  · obtain ⟨m', hpb, hring, hp, _, _, hframe⟩ := pushBack_nonempty h hl k i
    exact ⟨m', any, hpb, hring, hp, hframe⟩

/-- Every node of a well-formed ring is linked to its successor and to its predecessor,
both nodes of the ring; in a ring of one node they are the node itself. -/
theorem Ring.links {m : Mem K I} {any : Nat} {ps : List Nat} (h : Ring m any ps) {x : Nat}
    (hx : x ∈ ps) :
    ∃ y z, y ∈ ps ∧ z ∈ ps ∧ Link m x y ∧ Link m z x ∧ (ps.length = 1 → y = x ∧ z = x) := by
  obtain ⟨pre, post, rfl⟩ := List.append_of_mem hx
  have hr := ring_rotate h
  obtain ⟨_, _, hch, hlast⟩ := (ring_iff (List.cons_ne_nil x (post ++ pre))).1 hr
  by_cases ht : post ++ pre = []
  · have hpost : post = [] := (List.append_eq_nil.1 ht).1
    have hpre : pre = [] := (List.append_eq_nil.1 ht).2
    subst hpost hpre
    simp only [List.append_nil, List.getLast_singleton, List.head_cons] at hlast
    exact ⟨x, x, by simp, by simp, hlast, hlast, fun _ => ⟨rfl, rfl⟩⟩
  · have hmem : ∀ q ∈ post ++ pre, q ∈ pre ++ x :: post := by
      intro q hq
      simp only [List.mem_append, List.mem_cons] at hq ⊢
      tauto
    refine ⟨(post ++ pre).head ht, (post ++ pre).getLast ht, hmem _ (List.head_mem ht),
      hmem _ (List.getLast_mem ht), ?_, ?_, ?_⟩
    · have := (List.chain'_cons'.1 hch).1
      exact this _ (by rw [List.head?_eq_head ht]; rfl)
    · rw [List.getLast_cons ht] at hlast
      exact hlast
    · intro h1
      have : 0 < (post ++ pre).length := List.length_pos.2 ht
      simp only [List.length_append, List.length_cons] at h1 this
      omega

end Frames

section InsertAt

variable {K I : Type}

/-- Method `insertAfter(cursor, ...)` with the cursor on the first node of the list. -/
theorem insertAfterIt_head {m : Mem K I} {x : Nat} {t : List Nat} (h : Ring m x (x :: t))
    (k : K) (i : I) :
    ∃ m', insertAfterIt m x k i = some (m', true) ∧ Ring m' x (x :: m.fresh :: t) ∧
      (∀ q, m'.content q = if q = m.fresh then some (k, i) else m.content q) ∧
      (∀ q, q ∉ x :: t → q ≠ m.fresh → m'.get q = m.get q) := by
  obtain ⟨_, hnd, hc⟩ := (ring_cons m x x t).1 h
  have hx0 : x ≠ 0 := h.ne_zero (List.mem_cons_self _ _)
  have hfresh : ∀ p ∈ x :: t, p ≠ m.fresh := fun p hp => ne_fresh_of_isSome (h.isSome_get hp)
  have hxf : x ≠ m.fresh := hfresh x (List.mem_cons_self _ _)
  -- the successor `s` of `x`
  obtain ⟨s, l', hl⟩ : ∃ s l', t ++ [x] = s :: l' := by
    cases t with
    | nil => exact ⟨x, [], rfl⟩
    | cons a r => exact ⟨a, r ++ [x], rfl⟩
  rw [hl, List.chain_cons] at hc
  have hsmem : s ∈ x :: t := by
    have : s ∈ t ++ [x] := by rw [hl]; exact List.mem_cons_self _ _
    simp only [List.mem_append, List.mem_singleton, List.mem_cons] at this ⊢
    tauto
  have hsf : s ≠ m.fresh := hfresh s hsmem
  have hlive0 : ∀ q, q ∈ x :: t ∨ q = m.fresh → ((m.alloc k i).1.get q).isSome := by
    intro q hq
    rw [get_alloc]
    rcases hq with hq | hq
    · rw [if_neg (hfresh q hq)]; exact h.isSome_get hq
    · simp [hq]
  obtain ⟨m1, h1, hn1, hp1, hc1, hg1⟩ :=
    setPrevious_spec (m.alloc k i).1 m.fresh x (hlive0 _ (Or.inr rfl))
  have hlive1 : ∀ q, q ∈ x :: t ∨ q = m.fresh → (m1.get q).isSome := fun q hq => by
    rw [isSome_congr hc1]; exact hlive0 q hq
  have hnx1 : m1.nextOf x = some s := by
    rw [hn1, nextOf_alloc, if_neg hxf]; exact hc.1.1
  obtain ⟨l1, hl1, hs1⟩ := nextOf_eq_some.1 hnx1
  obtain ⟨m2, h2, hn2, hp2, hc2, hg2⟩ := setNext_spec m1 m.fresh s (hlive1 _ (Or.inr rfl))
  have hlive2 : ∀ q, q ∈ x :: t ∨ q = m.fresh → (m2.get q).isSome := fun q hq => by
    rw [isSome_congr hc2]; exact hlive1 q hq
  have hnx2 : m2.nextOf x = some s := by
    rw [hn2, if_neg hxf, hnx1]
  obtain ⟨l2, hl2, hs2⟩ := nextOf_eq_some.1 hnx2
  obtain ⟨m3, h3, hn3, hp3, hc3, hg3⟩ := setPrevious_spec m2 s m.fresh (hlive2 _ (Or.inl hsmem))
  have hlive3 : ∀ q, q ∈ x :: t ∨ q = m.fresh → (m3.get q).isSome := fun q hq => by
    rw [isSome_congr hc3]; exact hlive2 q hq
  obtain ⟨m4, h4, hn4, hp4, hc4, hg4⟩ :=
    setNext_spec m3 x m.fresh (hlive3 _ (Or.inl (List.mem_cons_self _ _)))
  have hnext : ∀ q, m4.nextOf q = if q = x then some m.fresh
      else if q = m.fresh then some s else m.nextOf q := by
    intro q
    rw [hn4, hn3, hn2, hn1, nextOf_alloc]
    by_cases hq : q = m.fresh <;> simp [hq]
  have hprevious : ∀ q, m4.previousOf q = if q = s then some m.fresh
      else if q = m.fresh then some x else m.previousOf q := by
    intro q
    rw [hp4, hp3, hp2, hp1, previousOf_alloc]
    by_cases hq : q = m.fresh <;> simp [hq]
  have hcontent : ∀ q, m4.content q = if q = m.fresh then some (k, i) else m.content q := by
    intro q
    rw [hc4, hc3, hc2, hc1, content_alloc]
  refine ⟨m4, ?_, ?_, hcontent, ?_⟩
  · simp [insertAfterIt, alloc_snd, hx0, h1, hl1, hs1, h2, hl2, hs2, h3, h4]
  · rw [ring_cons]
    refine ⟨rfl, ?_, ?_⟩
    · rw [List.nodup_cons]
      refine ⟨?_, ?_⟩
      · intro hmem
        rcases List.mem_cons.1 hmem with e | e
        · exact hxf e
        · exact (List.nodup_cons.1 hnd).1 e
      · rw [List.nodup_cons]
        exact ⟨fun hmem => hfresh _ (List.mem_cons_of_mem _ hmem) rfl, (List.nodup_cons.1 hnd).2⟩
    · have hsplit : (m.fresh :: t) ++ [x] = m.fresh :: s :: l' := by
        rw [List.cons_append, hl]
      rw [hsplit, List.chain_cons, List.chain_cons]
      have hnd2 : (s :: l').Nodup := by
        rw [← hl]
        exact (List.perm_append_comm.nodup_iff).2 (by simpa using hnd)
      refine ⟨⟨by rw [hnext, if_pos rfl], by rw [hprevious, if_neg hsf.symm, if_pos rfl]⟩,
        ⟨by rw [hnext, if_neg hxf.symm, if_pos rfl], by rw [hprevious, if_pos rfl]⟩, ?_⟩
      have hc' : List.Chain' (Link m) (s :: l') := hc.2
      apply chain'_imp_pos _ hc'
      intro p q hp hq hlink
      have hpt : p ∈ t := by
        have hd : (s :: l').dropLast = t := by rw [← hl, List.dropLast_concat]
        rw [hd] at hp
        exact hp
      have hpx : p ≠ x := fun e => (List.nodup_cons.1 hnd).1 (e ▸ hpt)
      have hpf : p ≠ m.fresh := hfresh p (List.mem_cons_of_mem _ hpt)
      have hql : q ∈ l' := hq
      have hqs : q ≠ s := fun e => (List.nodup_cons.1 hnd2).1 (e ▸ hql)
      have hqmem : q ∈ x :: t := by
        have : q ∈ t ++ [x] := by rw [hl]; exact List.mem_cons_of_mem _ hql
        simp only [List.mem_append, List.mem_singleton, List.mem_cons] at this ⊢
        tauto
      have hqf : q ≠ m.fresh := hfresh q hqmem
      exact ⟨by rw [hnext, if_neg hpx, if_neg hpf]; exact hlink.1,
        by rw [hprevious, if_neg hqs, if_neg hqf]; exact hlink.2⟩
  · intro q hq hqf
    have hqx : q ≠ x := fun e => hq (e ▸ List.mem_cons_self _ _)
    have hqs : q ≠ s := fun e => hq (e ▸ hsmem)
    rw [hg4 q hqx, hg3 q hqs, hg2 q hqf, hg1 q hqf, get_alloc, if_neg hqf]

end InsertAt

section InsertGeneral

variable {K I : Type}

theorem content_eq_of_pairs {m m' : Mem K I} {ps : List Nat}
    (hl : ∀ p ∈ ps, (m.get p).isSome) (hl' : ∀ p ∈ ps, (m'.get p).isSome)
    (h : pairs m' ps = pairs m ps) : ∀ q ∈ ps, m'.content q = m.content q := by
  have e : ps.map m'.content = ps.map m.content := by
    rw [← pairs_eq_map hl', ← pairs_eq_map hl, h]
  exact List.map_inj_left.1 e

/-- Method `insertAfter(cursor, ...)` with the cursor on a node `x` of a well-formed ring:
it returns true, the anchor does not move, and the new node comes right after `x`. -/
theorem insertAfterIt_spec {m : Mem K I} {any : Nat} {pre post : List Nat} {x : Nat}
    (h : Ring m any (pre ++ x :: post)) (k : K) (i : I) :
    ∃ m', insertAfterIt m x k i = some (m', true) ∧
      Ring m' any (pre ++ x :: m.fresh :: post) ∧
      (∀ q, m'.content q = if q = m.fresh then some (k, i) else m.content q) ∧
      (∀ q, q ∉ pre ++ x :: post → q ≠ m.fresh → m'.get q = m.get q) := by
  obtain ⟨m', hr, hring, hcontent, hframe⟩ := insertAfterIt_head (ring_rotate h) k i
  refine ⟨m', hr, ?_, hcontent, ?_⟩
  · cases pre with
    | nil =>
      have ha : any = x := by simpa using h.1
      rw [ha]
      simpa using hring
    | cons p0 pre' =>
      have ha : any = p0 := by simpa using h.1
      rw [ha]
      have h2 : Ring m' x ((x :: m.fresh :: post) ++ p0 :: pre') := by
        simpa using hring
      have h3 := ring_rotate h2
      simpa using h3
  · intro q hq hqf
    apply hframe q _ hqf
    intro hq2
    apply hq
    simp only [List.mem_cons, List.mem_append] at hq2 ⊢
    tauto

/-- Method `insertBefore(cursor, ...)` with the cursor on a node `x` of a well-formed ring:
it returns true, the anchor does not move, and the new node comes right before `x`, which
is at the end of the traversal when `x` is the anchor. -/
theorem insertBeforeIt_spec {m : Mem K I} {any : Nat} {pre post : List Nat} {x : Nat}
    (h : Ring m any (pre ++ x :: post)) (k : K) (i : I) :
    ∃ m', insertBeforeIt m x k i = some (m', true) ∧
      Ring m' any (if pre = [] then x :: (post ++ [m.fresh]) else pre ++ m.fresh :: x :: post) ∧
      (∀ q, m'.content q = if q = m.fresh then some (k, i) else m.content q) ∧
      (∀ q, q ∉ pre ++ x :: post → q ≠ m.fresh → m'.get q = m.get q) := by
  have hrot := ring_rotate h
  have hx0 : x ≠ 0 := hrot.ne_zero (List.mem_cons_self _ _)
  obtain ⟨m', hpb, hring, hpairs, hcont, _, hframe⟩ :=
    pushBack_nonempty hrot (List.cons_ne_nil _ _) k i
  have hpairs' : pairs m' (x :: (post ++ pre)) = pairs m (x :: (post ++ pre)) := by
    rw [pairs_append] at hpairs
    have e : pairs m' [m.fresh] = [(k, i)] := by simp [pairs, hcont]
    rw [e] at hpairs
    exact List.append_cancel_right hpairs
  have hfresh : ∀ p ∈ x :: (post ++ pre), p ≠ m.fresh :=
    fun p hp => ne_fresh_of_isSome (hrot.isSome_get hp)
  refine ⟨m', by rw [insertBeforeIt_any m hx0, hpb]; rfl, ?_, ?_, ?_⟩
  · cases pre with
    | nil =>
      have ha : any = x := by simpa using h.1
      rw [ha]
      simpa using hring
    | cons p0 pre' =>
      have ha : any = p0 := by simpa using h.1
      rw [ha]
      have h2 : Ring m' x ((x :: post) ++ p0 :: (pre' ++ [m.fresh])) := by
        simpa using hring
      have h3 := ring_rotate h2
      simpa using h3
  · intro q
    by_cases hq : q = m.fresh
    · rw [hq, hcont, if_pos rfl]
    · rw [if_neg hq]
      by_cases hq2 : q ∈ x :: (post ++ pre)
      · exact content_eq_of_pairs (fun p hp => hrot.isSome_get hp)
          (fun p hp => hring.isSome_get (List.mem_append_left _ hp)) hpairs' q hq2
      · exact content_congr (hframe q hq2 hq)
  · intro q hq hqf
    apply hframe q _ hqf
    intro hq2
    apply hq
    simp only [List.mem_cons, List.mem_append] at hq2 ⊢
    tauto

end InsertGeneral

section Copy

variable {K I : Type}

theorem assignLoop_spec (src : Nat) (psR : List Nat) :
    ∀ (rest : List Nat) (travel fuel : Nat) (m : Mem K I) (any : Nat) (acc : List Nat),
      Ring m any acc → (∀ q ∈ acc, q ∉ psR) → (∀ q ∈ psR, (m.get q).isSome) →
      (∀ q ∈ travel :: rest, q ∈ psR) →
      List.Chain (fun a b => m.nextOf a = some b) travel (rest ++ [src]) → src ∉ rest →
      rest.length < fuel →
      ∃ m' any' acc', assignLoop src fuel m any travel = some (m', any') ∧
        Ring m' any' acc' ∧
        pairs m' acc' = pairs m acc ++ pairs m (travel :: rest) ∧
        (∀ q ∈ acc', q ∉ psR) ∧
        (∀ q, q ∉ acc → (m.get q).isSome → m'.get q = m.get q) := by
  intro rest
  induction rest with
  | nil =>
    intro travel fuel m any acc hacc hdis hlive hsub hc _ hf
    obtain ⟨f, rfl⟩ : ∃ f, fuel = f + 1 := ⟨fuel - 1, by simp at hf; omega⟩
    simp only [List.nil_append, List.chain_cons] at hc
    obtain ⟨nd, hnd, hnx⟩ := nextOf_eq_some.1 hc.1
    obtain ⟨m1, any1, hpb, hring1, hp1, hframe1⟩ := pushBack_ring hacc nd.key nd.info
    have htr : travel ∈ psR := hsub travel (List.mem_cons_self _ _)
    have hkeep : ∀ q, q ∉ acc → (m.get q).isSome → m1.get q = m.get q :=
      fun q hq hl => hframe1 q hq (ne_fresh_of_isSome hl)
    have hnd1 : m1.get travel = some nd := by
      rw [hkeep travel (fun e => hdis _ e htr) (by simp [hnd]), hnd]
    refine ⟨m1, any1, acc ++ [m.fresh], by simp [assignLoop, hnd, hpb, hnd1, hnx], hring1, ?_,
      ?_, hkeep⟩
    · rw [hp1, pairs_cons hnd, pairs_nil]
    · intro q hq hqR
      rcases List.mem_append.1 hq with h1 | h1
      · exact hdis q h1 hqR
      · simp only [List.mem_singleton] at h1
        exact ne_fresh_of_isSome (hlive q hqR) h1
  | cons r rest ih =>
    intro travel fuel m any acc hacc hdis hlive hsub hc hsrc hf
    obtain ⟨f, rfl⟩ : ∃ f, fuel = f + 1 := ⟨fuel - 1, by simp at hf; omega⟩
    simp only [List.cons_append, List.chain_cons] at hc
    obtain ⟨nd, hnd, hnx⟩ := nextOf_eq_some.1 hc.1
    have hr : r ≠ src := fun h => hsrc (by simp [h])
    have hsrc2 : src ∉ rest := fun h => hsrc (List.mem_cons_of_mem _ h)
    obtain ⟨m1, any1, hpb, hring1, hp1, hframe1⟩ := pushBack_ring hacc nd.key nd.info
    have htr : travel ∈ psR := hsub travel (List.mem_cons_self _ _)
    have hkeep : ∀ q, q ∉ acc → (m.get q).isSome → m1.get q = m.get q :=
      fun q hq hl => hframe1 q hq (ne_fresh_of_isSome hl)
    have hkeepR : ∀ q ∈ psR, m1.get q = m.get q :=
      fun q hq => hkeep q (fun e => hdis _ e hq) (hlive q hq)
    have hnd1 : m1.get travel = some nd := by rw [hkeepR travel htr, hnd]
    have hdis1 : ∀ q ∈ acc ++ [m.fresh], q ∉ psR := by
      intro q hq hqR
      rcases List.mem_append.1 hq with h1 | h1
      · exact hdis q h1 hqR
      · simp only [List.mem_singleton] at h1
        exact ne_fresh_of_isSome (hlive q hqR) h1
    have hsub1 : ∀ q ∈ r :: rest, q ∈ psR := fun q hq => hsub q (List.mem_cons_of_mem _ hq)
    have hc1 : List.Chain (fun a b => m1.nextOf a = some b) r (rest ++ [src]) := by
      have hc' : List.Chain' (fun a b => m.nextOf a = some b) (r :: (rest ++ [src])) := hc.2
      apply chain'_imp_pos _ hc'
      intro a b ha _ hab
      have hd : (r :: (rest ++ [src])).dropLast = r :: rest := by
        rw [← List.cons_append, List.dropLast_concat]
      rw [hd] at ha
      rw [Mem.nextOf, hkeepR a (hsub1 a ha)]
      exact hab
    simp at hf
    obtain ⟨m', any', acc', hrec, hring', hp', hdis', hframe'⟩ :=
      ih r f m1 any1 (acc ++ [m.fresh]) hring1 hdis1
        (fun q hq => by rw [hkeepR q hq]; exact hlive q hq) hsub1 hc1 hsrc2 (by omega)
    refine ⟨m', any', acc', by simp [assignLoop, hnd, hpb, hnd1, hnx, hr, hrec], hring', ?_,
      hdis', ?_⟩
    · rw [hp', hp1, pairs_cons hnd, List.append_assoc, List.singleton_append]
      congr 2
      exact pairs_congr (fun p hp => content_congr (hkeepR p (hsub1 p hp)))
    · intro q hq hl
      have hqf : q ≠ m.fresh := ne_fresh_of_isSome hl
      have hq1 : q ∉ acc ++ [m.fresh] := by
        intro e
        rcases List.mem_append.1 e with h1 | h1
        · exact hq h1
        · exact hqf (by simpa using h1)
      rw [hframe' q hq1 (by rw [hkeep q hq hl]; exact hl), hkeep q hq hl]

/-- Assignment `D = R` between two distinct objects whose rings are well formed and share no
node, when `D` does not hold exactly one node: it returns, `D` holds new nodes with the
traversal of `R`, and `R` is untouched. -/
theorem assign_spec {m : Mem K I} {any aAny : Nat} {psD psR : List Nat} (hD : Ring m any psD)
    (hR : Ring m aAny psR) (hdis : ∀ q ∈ psD, q ∉ psR) (h1 : psD.length ≠ 1)
    {this that : Nat} (hne : this ≠ that) {fuel : Nat} (hfD : psD.length ≤ fuel)
    (hfR : psR.length ≤ fuel) :
    ∃ m' any' psC, assign fuel m this that any aAny = some (m', any') ∧
      Ring m' any' psC ∧ pairs m' psC = pairs m psR ∧
      Ring m' aAny psR ∧ pairs m' psR = pairs m psR ∧ (∀ q ∈ psC, q ∉ psR) ∧
      (∀ q, q ∉ psD → (m.get q).isSome → m'.get q = m.get q) := by
  -- `clear()` on the assigned ring
  obtain ⟨m1, hcl, hg1⟩ : ∃ m1, clear fuel m any = some (m1, 0) ∧
      ∀ q, q ∉ psD → m1.get q = m.get q := by
    by_cases hl : psD = []
    · subst hl
      have h0 : any = 0 := (ring_nil m any).1 hD
      subst h0
      exact ⟨m, clear_empty fuel m, fun _ _ => rfl⟩
    · have h2 : 2 ≤ psD.length := by
        have : 0 < psD.length := List.length_pos.2 hl
        omega
      obtain ⟨m1, hcl, _, hg⟩ := clear_spec hD h2 hfD
      exact ⟨m1, hcl, fun q hq => by rw [hg, if_neg hq]⟩
  have hgR : ∀ q ∈ psR, m1.get q = m.get q := fun q hq => hg1 q (fun e => hdis q e hq)
  obtain ⟨hR1, hpR1⟩ := ring_congr hgR hR
  by_cases hlR : psR = []
  · subst hlR
    have h0 : aAny = 0 := (ring_nil m aAny).1 hR
    refine ⟨m1, 0, [], by simp [assign, hne, hcl, h0], (ring_nil _ _).2 rfl, rfl, hR1, hpR1,
      by simp, fun q hq _ => hg1 q hq⟩
  · have haAny : aAny ≠ 0 := fun h0 => hlR (hR.any_eq_zero_iff.1 h0)
    cases psR with
    | nil => exact absurd rfl hlR
    | cons a t =>
      have ha : aAny = a := ((ring_cons m aAny a t).1 hR).1
      subst ha
      obtain ⟨hc, hnt⟩ := hR1.nextChain
      obtain ⟨m', any', psC, hloop, hringC, hpC, hdisC, hframe⟩ :=
        assignLoop_spec aAny (aAny :: t) t aAny fuel m1 0 [] ((ring_nil _ _).2 rfl)
          (by simp) (fun q hq => hR1.isSome_get hq) (fun q hq => hq) hc hnt
          (by simpa using hfR)
      have hgR' : ∀ q ∈ aAny :: t, m'.get q = m.get q := by
        intro q hq
        rw [hframe q (by simp) (hR1.isSome_get hq), hgR q hq]
      obtain ⟨hR', hpR'⟩ := ring_congr hgR' hR
      refine ⟨m', any', psC, by simp [assign, hne, hcl, haAny, hloop], hringC, ?_, hR', hpR',
        hdisC, ?_⟩
      · rw [hpC, pairs_nil, List.nil_append, hpR1]
      · intro q hq hl
        rw [hframe q (by simp) (by rw [hg1 q hq]; exact hl), hg1 q hq]

/-- Copy construction from a well-formed ring `R`: the new ring holds new nodes with the
traversal of `R`, and `R` is untouched. -/
theorem copy_spec {m : Mem K I} {aAny : Nat} {psR : List Nat} (hR : Ring m aAny psR)
    {this that : Nat} (hne : this ≠ that) {fuel : Nat} (hfR : psR.length ≤ fuel) :
    ∃ m' any' psC, copy fuel m this that aAny = some (m', any') ∧
      Ring m' any' psC ∧ pairs m' psC = pairs m psR ∧
      Ring m' aAny psR ∧ pairs m' psR = pairs m psR ∧ (∀ q ∈ psC, q ∉ psR) ∧
      (∀ q, (m.get q).isSome → m'.get q = m.get q) := by
  obtain ⟨m', any', psC, h, hC, hpC, hR', hpR', hdis, hframe⟩ :=
    assign_spec ((ring_nil m 0).2 rfl) hR (by simp) (by simp) hne (Nat.zero_le _) hfR
  exact ⟨m', any', psC, h, hC, hpC, hR', hpR', hdis, fun q hl => hframe q (by simp) hl⟩

end Copy

section Queries

variable {K I : Type}

theorem existsLoop_spec [DecidableEq K] (m : Mem K I) (any : Nat) (key : K) :
    ∀ (rest : List Nat) (p fuel : Nat),
      List.Chain (fun a b => m.nextOf a = some b) p (rest ++ [any]) → any ∉ rest →
      rest.length < fuel →
      existsLoop m any key fuel p
        = some (decide (key ∈ (pairs m (p :: rest)).map Prod.fst)) := by
  intro rest
  induction rest with
  | nil =>
    intro p fuel hc _ hf
    obtain ⟨f, rfl⟩ : ∃ f, fuel = f + 1 := ⟨fuel - 1, by simp at hf; omega⟩
    simp only [List.nil_append, List.chain_cons] at hc
    obtain ⟨nd, hnd, hnx⟩ := nextOf_eq_some.1 hc.1
    rw [pairs_cons hnd]
    by_cases hk : nd.key = key
    · simp [existsLoop, hnd, hk]
    · have hk' : ¬ key = nd.key := fun e => hk e.symm
      simp [existsLoop, hnd, hnx, hk, hk', pairs_nil]
  | cons q rest ih =>
    intro p fuel hc hany hf
    obtain ⟨f, rfl⟩ : ∃ f, fuel = f + 1 := ⟨fuel - 1, by simp at hf; omega⟩
    simp only [List.cons_append, List.chain_cons] at hc
    obtain ⟨nd, hnd, hnx⟩ := nextOf_eq_some.1 hc.1
    have hq : q ≠ any := fun h => hany (by simp [h])
    have hany2 : any ∉ rest := fun h => hany (List.mem_cons_of_mem _ h)
    simp at hf
    rw [pairs_cons hnd]
    by_cases hk : nd.key = key
    · simp [existsLoop, hnd, hk]
    · have hk' : ¬ key = nd.key := fun e => hk e.symm
      have hrec := ih q f hc.2 hany2 (by omega)
      simp [existsLoop, hnd, hnx, hq, hk, hk', hrec]

theorem existsKey_spec [DecidableEq K] {m : Mem K I} {any : Nat} {ps : List Nat}
    (h : Ring m any ps) {fuel : Nat} (hf : ps.length ≤ fuel) (key : K) :
    existsKey fuel m any key = some (decide (key ∈ (pairs m ps).map Prod.fst)) := by
  cases ps with
  | nil => simp [existsKey, (ring_nil m any).1 h, pairs_nil]
  | cons a t =>
    have ha : any = a := ((ring_cons m any a t).1 h).1
    have h0 : a ≠ 0 := h.ne_zero (List.mem_cons_self a t)
    obtain ⟨hc, hnt⟩ := h.nextChain
    subst ha
    simp only [existsKey, if_neg h0]
    exact existsLoop_spec m any key t any fuel hc hnt (by simpa using hf)

/-- Claim C15: on a well-formed ring with traversal `pairs m ps`, `howMany(key)` returns the
number of pairs of the traversal whose key is `key` (0 for the empty ring), `exists(key)`
returns true exactly when that number is at least one, and `length()` returns the number
of pairs of the traversal. -/
theorem queries_count [DecidableEq K] (m : Mem K I) (any : Nat) (ps : List Nat) (key : K)
    (fuel : Nat) (h : Ring m any ps) (hf : ps.length ≤ fuel) (hb : ps.length < 4294967296) :
    print fuel m any = some (pairs m ps) ∧
    howMany fuel m any key = some (((pairs m ps).map Prod.fst).count key) ∧
    (any = 0 → howMany fuel m any key = some 0) ∧
    existsKey fuel m any key = some (decide (1 ≤ ((pairs m ps).map Prod.fst).count key)) ∧
    length fuel m any = some (pairs m ps).length := by
  refine ⟨print_spec h hf, howMany_spec h hf hb key, ?_, ?_, ?_⟩
  · intro h0
    simp [howMany, h0]
  · rw [existsKey_spec h hf key]
    congr 1
    rw [decide_eq_decide]
    exact (List.count_pos_iff).symm
  · rw [length_spec h hf hb, h.length_pairs]

/-- Witness for claim C15: on the ring `[(a,1),(b,2),(a,3),(a,4)]`, `howMany(a)` is 3. -/
theorem queries_count_witness :
    (Ring ringABAA 1 [1, 2, 3, 4] ∧
      print 4 ringABAA 1 = some (pairs ringABAA [1, 2, 3, 4]) ∧
      howMany 4 ringABAA 1 'a' = some (((pairs ringABAA [1, 2, 3, 4]).map Prod.fst).count 'a') ∧
      ((1 : Nat) = 0 → howMany 4 ringABAA 1 'a' = some 0) ∧
      existsKey 4 ringABAA 1 'a'
        = some (decide (1 ≤ ((pairs ringABAA [1, 2, 3, 4]).map Prod.fst).count 'a')) ∧
      length 4 ringABAA 1 = some (pairs ringABAA [1, 2, 3, 4]).length) ∧
    print 4 ringABAA 1 = some [('a', 1), ('b', 2), ('a', 3), ('a', 4)] ∧
    howMany 4 ringABAA 1 'a' = some 3 ∧
    existsKey 4 ringABAA 1 'a' = some true ∧
    existsKey 4 ringABAA 1 'c' = some false ∧
    length 4 ringABAA 1 = some 4 :=
  ⟨⟨by decide, queries_count ringABAA 1 [1, 2, 3, 4] 'a' 4 (by decide) (by decide) (by decide)⟩,
    by decide, by decide, by decide, by decide, by decide⟩

end Queries

section SoleNodeAndNull

variable {K I : Type}

/-- Claim C16: on a well-formed ring with exactly one node, removing that node by a cursor
on it, or by `remove(key)` with the key it holds (occurrence 1), returns and leaves the ring
empty: `any` is `nullptr`, `isEmpty()` is true and `length()` is 0. -/
theorem remove_sole_node [DecidableEq K] (m : Mem K I) (any : Nat) (ps : List Nat)
    (fuel : Nat) (h : Ring m any ps) (h1 : ps.length = 1) (hf : 1 ≤ fuel) :
    ∃ m', removeIt m any any = some (m', 0) ∧
      isEmpty 0 = true ∧ length fuel m' 0 = some 0 ∧ print fuel m' 0 = some [] ∧
      m'.get any = none ∧
      (∀ (k : K) (v : I), m.content any = some (k, v) →
        remove fuel m any k 1 = some (m', 0)) := by
  obtain ⟨x, rfl⟩ := List.length_eq_one.1 h1
  have ha : any = x := ((ring_cons m any x []).1 h).1
  subst ha
  have hany : any ≠ 0 := h.ne_zero (List.mem_cons_self _ _)
  obtain ⟨m', hr, _, hg⟩ := removeIt_single h
  refine ⟨m', hr, rfl, by simp [length], by simp [print], by rw [hg, if_pos rfl], ?_⟩
  intro k v hkv
  obtain ⟨r, hfind, hcase⟩ := find_spec h (by simpa using hf) (by simp) k (le_refl (1 : Int))
  have hpairs : pairs m [any] = [(k, v)] := by
    rw [pairs_cons_content hkv, pairs_nil]
  rcases hcase with ⟨_, hlt⟩ | ⟨pre, post, _, hsplit, _, _⟩
  · rw [hpairs] at hlt
    simp at hlt
  · have hr' : r = any := by
      cases pre with
      | nil =>
        simp only [List.nil_append, List.cons.injEq] at hsplit
        exact hsplit.1.symm
      | cons a pre' =>
        simp at hsplit
    subst hr'
    rw [remove_eq_removeIt h (by simpa using hf) (by simp) k (le_refl (1 : Int)) hfind hany, hr]

/-- Witness for claim C16: the ring `[(a,1)]`, by a cursor on its node and by `remove(a)`. -/
theorem remove_sole_node_witness :
    (Ring ringA 1 [1] ∧
      ∃ m', removeIt ringA 1 1 = some (m', 0) ∧
        isEmpty 0 = true ∧ length 2 m' 0 = some 0 ∧ print 2 m' 0 = some [] ∧
        m'.get 1 = none ∧
        (∀ (k : Char) (v : Nat), ringA.content 1 = some (k, v) →
          remove 2 ringA 1 k 1 = some (m', 0))) ∧
    (remove 2 ringA 1 'a' 1).map (fun s => isEmpty s.2) = some true ∧
    (remove 2 ringA 1 'a' 1).bind (fun s => length 2 s.1 s.2) = some 0 :=
  ⟨⟨by decide, remove_sole_node ringA 1 [1] 2 (by decide) (by decide) (by decide)⟩,
    by decide, by decide⟩

/-- Claim C17: given a null cursor, `insertAfter(cursor, k, v)` and
`insertBefore(cursor, k, v)` return false and `remove(cursor)` returns, and in all three
cases the store and the anchor are the ones before the call, whatever the ring is. -/
theorem null_cursor_no_mutation (m : Mem K I) (any : Nat) (k : K) (v : I) :
    insertAfterIt m 0 k v = some (m, false) ∧
    insertBeforeIt m 0 k v = some (m, false) ∧
    removeIt m any 0 = some (m, any) := by
  simp [insertAfterIt, insertBeforeIt, removeIt]

end SoleNodeAndNull

section DefectsInSequences

/-- Claim C11, evaluated on the code: on the ring `[(a,1),(b,2),(a,3),(a,4)]`, where the key
`a` has three matches, `insertAfter(a, x, 9, 2)` and `insertBefore(a, x, 9, 2)` meet none of
the three failure conditions, yet neither returns true: both methods end in a call that no
overload accepts, so no call of them has a result. -/
theorem insert_key_no_result :
    Ring ringABAA 1 [1, 2, 3, 4] ∧
    howMany 4 ringABAA 1 'a' = some 3 ∧
    insertAfter 4 ringABAA 1 'a' 'x' 9 2 = none ∧
    insertBefore 4 ringABAA 1 'a' 'x' 9 2 = none := by
  decide

/-- Claim C12, evaluated on the code: the sequence `pushBack(a,1); clear()` from the empty
ring has no defined result, because `clear()` deletes the only node twice; the sequence
`pushBack(a,1); pushBack(b,2); clear()` ends in the empty ring, and after
`pushBack(a,1)` alone the only node has `next` and `previous` equal to itself. -/
theorem clear_breaks_invariant_sequence :
    (pushBack (Mem.empty Char Nat) 0 'a' 1).bind (fun s => clear 5 s.1 s.2) = none ∧
    ((pushBack (Mem.empty Char Nat) 0 'a' 1).bind (fun s => pushBack s.1 s.2 'b' 2)).bind
      (fun s => (clear 5 s.1 s.2).map Prod.snd) = some 0 ∧
    (pushBack (Mem.empty Char Nat) 0 'a' 1).map (fun s => (s.2, s.1.nextOf 1, s.1.previousOf 1))
      = some (1, some 1, some 1) := by
  decide

/-- Claim C13, evaluated on the code: on the ring `[(a,1)]` the loop of `clear()` starts at
`any->next`, which is `any`, and deletes that node; the statement `delete any` after the loop
then deletes the same node a second time, so `clear()` has no defined result. On the ring
`[(a,1),(b,2)]` both nodes are deleted, each once. -/
theorem clear_single_node_double_delete :
    Ring ringA 1 [1] ∧
    ringA.nextOf 1 = some 1 ∧
    (clearLoop 1 5 ringA 1).map (fun m1 => m1.get 1) = some none ∧
    (clearLoop 1 5 ringA 1).bind (fun m1 => m1.free 1) = none ∧
    clear 5 ringA 1 = none ∧
    (clear 5 ringAB 1).map (fun s => (s.2, s.1.get 1, s.1.get 2)) = some (0, none, none) := by
  decide

/-- Claim C14, evaluated on the code: `clear()` on the ring `[(a,1)]` has no defined result
(it deletes the node twice), so neither `isEmpty()` nor `length()` can be read afterwards;
on the empty ring and on `[(a,1),(b,2)]` it returns with the ring empty, and a second
`clear()` then changes nothing. -/
theorem clear_single_node_not_empty :
    (clear 5 ringA 1).map (fun s => isEmpty s.2) = none ∧
    (clear 5 ringA 1).bind (fun s => length 5 s.1 s.2) = none ∧
    clear 5 (Mem.empty Char Nat) 0 = some (Mem.empty Char Nat, 0) ∧
    (clear 5 ringAB 1).map (fun s => isEmpty s.2) = some true ∧
    (clear 5 ringAB 1).bind (fun s => length 5 s.1 s.2) = some 0 ∧
    (clear 5 ringAB 1).bind (fun s => clear 5 s.1 s.2) = clear 5 ringAB 1 := by
  decide

/-- Claim C18, evaluated on the code: the copy `C` of the ring `R = [(a,1)]` (copy constructed,
`this` is 1 and `that` is 0 below) is a ring of one node at address 2, distinct from the node
of `R` at address 1; `clear()` applied to `C` deletes that node twice, so it has no defined
result and nothing is known about `R` afterwards. The copy of `[(a,1),(b,2)]` can be
cleared, or pushed to, and `R` keeps its traversal. -/
theorem copy_of_single_node_clear :
    (copy 5 ringA 1 0 1).map Prod.snd = some 2 ∧
    (copy 5 ringA 1 0 1).bind (fun s => print 5 s.1 s.2) = some [('a', 1)] ∧
    (copy 5 ringA 1 0 1).bind (fun s => print 5 s.1 1) = some [('a', 1)] ∧
    (copy 5 ringA 1 0 1).bind (fun s => clear 5 s.1 s.2) = none ∧
    (copy 5 ringAB 1 0 1).bind (fun s => (clear 5 s.1 s.2).bind (fun s => print 5 s.1 1))
      = some [('a', 1), ('b', 2)] ∧
    (copy 5 ringAB 1 0 1).bind (fun s => (pushBack s.1 s.2 'z' 0).bind (fun s => print 5 s.1 1))
      = some [('a', 1), ('b', 2)] := by
  decide

/-- Claim C19, evaluated on the code: on the ring `[(a,1),(b,2),(c,3)]`, `insertBefore` with
a cursor on the anchor node gives `[(a,1),(b,2),(c,3),(x,9)]` with the anchor unmoved, the
traversal `pushBack(x, 9)` gives; `insertBefore(a, x, 9)`, whose target is the anchor node,
ends in a call that no overload accepts and inserts nothing. -/
theorem insertBefore_anchor_by_key_unresolved :
    find 3 ringABC 1 'a' 1 = some 1 ∧
    (insertBeforeIt ringABC 1 'x' 9).bind (fun s => print 4 s.1 1)
      = some [('a', 1), ('b', 2), ('c', 3), ('x', 9)] ∧
    (pushBack ringABC 1 'x' 9).bind (fun s => print 4 s.1 s.2)
      = some [('a', 1), ('b', 2), ('c', 3), ('x', 9)] ∧
    insertBefore 3 ringABC 1 'a' 'x' 9 1 = none := by
  decide

/-- Claim C20, evaluated on the code: on the ring `[(a,1),(b,2),(c,3)]` and for the
occurrence 0, `find(b, 0)` is the null cursor and `remove(b, 0)` changes nothing, but
`insertAfter(b, x, 9, 0)` and `insertBefore(b, x, 9, 0)` do not return false: both methods
end in a call that no overload accepts, so no call of them has a result. For the occurrence
-1, too, `find` is the null cursor and `remove` changes nothing. -/
theorem insert_key_occurrence_zero :
    find 3 ringABC 1 'b' 0 = some 0 ∧
    remove 3 ringABC 1 'b' 0 = some (ringABC, 1) ∧
    insertAfter 3 ringABC 1 'b' 'x' 9 0 = none ∧
    insertBefore 3 ringABC 1 'b' 'x' 9 0 = none ∧
    find 3 ringABC 1 'b' (-1) = some 0 ∧
    remove 3 ringABC 1 'b' (-1) = some (ringABC, 1) := by
  decide

end DefectsInSequences

section Cursors

variable {K I : Type}

theorem plusLoop_succ (m : Mem K I) :
    ∀ (k travel : Nat), Iterator.plusLoop m (k + 1) travel
      = (Iterator.plusLoop m k travel).bind m.nextOf
  | 0, travel => by
    cases h : m.get travel <;> simp [Iterator.plusLoop, Mem.nextOf, h]
  | k + 1, travel => by
    cases h : m.get travel with
    | none => simp [Iterator.plusLoop, h]
    | some nd =>
      have := plusLoop_succ m k nd.next
      simp only [Iterator.plusLoop, h] at this ⊢
      exact this

theorem minusLoop_succ (m : Mem K I) :
    ∀ (k travel : Nat), Iterator.minusLoop m (k + 1) travel
      = (Iterator.minusLoop m k travel).bind m.previousOf
  | 0, travel => by
    cases h : m.get travel <;> simp [Iterator.minusLoop, Mem.previousOf, h]
  | k + 1, travel => by
    cases h : m.get travel with
    | none => simp [Iterator.minusLoop, h]
    | some nd =>
      have := minusLoop_succ m k nd.previous
      simp only [Iterator.minusLoop, h] at this ⊢
      exact this

/-- On a well-formed ring the `next` of a node is a node of the ring whose `previous` is the
node; and the other way round. -/
theorem next_previous {m : Mem K I} {any : Nat} {ps : List Nat} (h : Ring m any ps) {x : Nat}
    (hx : x ∈ ps) :
    (∃ y, y ∈ ps ∧ m.nextOf x = some y ∧ m.previousOf y = some x) ∧
    (∃ z, z ∈ ps ∧ m.previousOf x = some z ∧ m.nextOf z = some x) := by
  obtain ⟨y, z, hy, hz, hxy, hzx, _⟩ := h.links hx
  exact ⟨⟨y, hy, hxy.1, hxy.2⟩, ⟨z, hz, hzx.2, hzx.1⟩⟩

/-- No call of prefix `operator++` has a result. -/
theorem Iterator.inc_none (m : Mem K I) (travel : Nat) : Iterator.inc m travel = none := by
  simp [Iterator.inc, returnsThisAsRef]

/-- No call of prefix `operator--` has a result. -/
theorem Iterator.dec_none (m : Mem K I) (travel : Nat) : Iterator.dec m travel = none := by
  simp [Iterator.dec, returnsThisAsRef]

theorem plusLoop_minusLoop {m : Mem K I} {any : Nat} {ps : List Nat} (h : Ring m any ps) :
    ∀ (k : Nat) (x : Nat), x ∈ ps →
      ∃ a, a ∈ ps ∧ Iterator.plusLoop m k x = some a ∧ Iterator.minusLoop m k a = some x
  | 0, x, hx => ⟨x, hx, rfl, rfl⟩
  | k + 1, x, hx => by
    obtain ⟨a, ha, hpa, hma⟩ := plusLoop_minusLoop h k x hx
    obtain ⟨⟨y, hy, hay, hya⟩, _⟩ := next_previous h ha
    refine ⟨y, hy, by rw [plusLoop_succ, hpa]; exact hay, ?_⟩
    obtain ⟨nd, hnd, hprev⟩ := previousOf_eq_some.1 hya
    simp only [Iterator.minusLoop, hnd, hprev]
    exact hma

theorem minusLoop_plusLoop {m : Mem K I} {any : Nat} {ps : List Nat} (h : Ring m any ps) :
    ∀ (k : Nat) (x : Nat), x ∈ ps →
      ∃ b, b ∈ ps ∧ Iterator.minusLoop m k x = some b ∧ Iterator.plusLoop m k b = some x
  | 0, x, hx => ⟨x, hx, rfl, rfl⟩
  | k + 1, x, hx => by
    obtain ⟨b, hb, hmb, hpb⟩ := minusLoop_plusLoop h k x hx
    obtain ⟨_, ⟨z, hz, hbz, hzb⟩⟩ := next_previous h hb
    refine ⟨z, hz, by rw [minusLoop_succ, hmb]; exact hbz, ?_⟩
    obtain ⟨nd, hnd, hnext⟩ := nextOf_eq_some.1 hzb
    simp only [Iterator.plusLoop, hnd, hnext]
    exact hpb

theorem plusLoop_chain (m : Mem K I) (stop : Nat) :
    ∀ (rest : List Nat) (p : Nat),
      List.Chain (fun a b => m.nextOf a = some b) p (rest ++ [stop]) →
      Iterator.plusLoop m (rest.length + 1) p = some stop := by
  intro rest
  induction rest with
  | nil =>
    intro p hc
    simp only [List.nil_append, List.chain_cons] at hc
    obtain ⟨nd, hnd, hnx⟩ := nextOf_eq_some.1 hc.1
    simp [Iterator.plusLoop, hnd, hnx]
  | cons q rest ih =>
    intro p hc
    simp only [List.cons_append, List.chain_cons] at hc
    obtain ⟨nd, hnd, hnx⟩ := nextOf_eq_some.1 hc.1
    have := ih q hc.2
    simp only [List.length_cons, Iterator.plusLoop, hnd, hnx]
    exact this

/-- On a well-formed ring, as many steps along `next` as the ring has nodes bring a cursor
back to the node it started on. -/
theorem plusLoop_length {m : Mem K I} {any : Nat} {ps : List Nat} (h : Ring m any ps) {x : Nat}
    (hx : x ∈ ps) : Iterator.plusLoop m ps.length x = some x := by
  obtain ⟨pre, post, rfl⟩ := List.append_of_mem hx
  obtain ⟨hc, _⟩ := (ring_rotate h).nextChain
  have := plusLoop_chain m x (post ++ pre) x hc
  have hlen : (pre ++ x :: post).length = (post ++ pre).length + 1 := by
    simp
    omega
  rw [hlen]
  exact this

theorem toSigned_of_lt {u : Nat} (h : u < 2147483648) : toSigned u = u := by
  have h1 : u % 4294967296 = u := Nat.mod_eq_of_lt (by omega)
  simp [toSigned, h1, h]

/-- The operators that can be instantiated, on a well-formed ring and for a cursor `it` on
a node of the ring: for `n >= 0`, `it + n` is on a node of the ring and `(it + n) - n` is
`it`, and likewise `(it - n) + n`; postfix `++` followed by postfix `--` returns to `it`;
`it + length()` is `it`; and for `n <= 0` both `it + n` and `it - n` are `it`. -/
theorem cursor_arithmetic (m : Mem K I) (any : Nat) (ps : List Nat) (it : Nat) (n : Int)
    (fuel : Nat) (h : Ring m any ps) (hit : it ∈ ps) (hf : ps.length ≤ fuel)
    (hb : ps.length < 2147483648) :
    (0 ≤ n → ∃ a, a ∈ ps ∧ Iterator.plus m it n = some a ∧ Iterator.minus m a n = some it) ∧
    (0 ≤ n → ∃ b, b ∈ ps ∧ Iterator.minus m it n = some b ∧ Iterator.plus m b n = some it) ∧
    (∃ c, c ∈ ps ∧ Iterator.postInc m it = some (it, c) ∧
      Iterator.postDec m c = some (c, it)) ∧
    (∃ len, length fuel m any = some len ∧ Iterator.plus m it (toSigned len) = some it) ∧
    (n ≤ 0 → Iterator.plus m it n = some it ∧ Iterator.minus m it n = some it) := by
  obtain ⟨⟨c, hc, hinc, hdec⟩, _⟩ := next_previous h hit
  refine ⟨fun _ => plusLoop_minusLoop h n.toNat it hit,
    fun _ => minusLoop_plusLoop h n.toNat it hit, ?_, ?_, ?_⟩
  · obtain ⟨nd, hnd, hnx⟩ := nextOf_eq_some.1 hinc
    obtain ⟨nc, hnc, hpr⟩ := previousOf_eq_some.1 hdec
    exact ⟨c, hc, by simp [Iterator.postInc, hnd, hnx], by simp [Iterator.postDec, hnc, hpr]⟩
  · refine ⟨ps.length, length_spec h hf (by omega), ?_⟩
    rw [toSigned_of_lt hb]
    simp only [Iterator.plus, Int.toNat_ofNat]
    exact plusLoop_length h hit
  · intro hn
    have h0 : n.toNat = 0 := Int.toNat_eq_zero.2 hn
    simp [Iterator.plus, Iterator.minus, h0, Iterator.plusLoop, Iterator.minusLoop]

/-- Claim C21, evaluated on the code: with a cursor on the node `(b,2)` of the ring
`[(a,1),(b,2),(c,3)]` (address 2), prefix `++` has no result, and neither has prefix `--`
on the node `(c,3)`: both are `const` members that return `*this` as `Iterator&` and cannot
be instantiated, so `++` followed by `--` does not return to the node. Postfix `++` then
postfix `--`, `(it + 5) - 5`, `(it - 5) + 5`, `it + length()` and `it + (-5)`, `it - (-5)` all
give the node `(b,2)`. -/
theorem prefix_increment_no_result :
    Ring ringABC 1 [1, 2, 3] ∧
    Iterator.inc ringABC 2 = none ∧
    Iterator.dec ringABC 3 = none ∧
    (Iterator.inc ringABC 2).bind (Iterator.dec ringABC) = none ∧
    Iterator.postInc ringABC 2 = some (2, 3) ∧
    Iterator.postDec ringABC 3 = some (3, 2) ∧
    (Iterator.plus ringABC 2 5).bind (fun a => Iterator.minus ringABC a 5) = some 2 ∧
    (Iterator.minus ringABC 2 5).bind (fun b => Iterator.plus ringABC b 5) = some 2 ∧
    (length 3 ringABC 1).bind (fun len => Iterator.plus ringABC 2 (toSigned len)) = some 2 ∧
    Iterator.plus ringABC 2 (-5) = some 2 ∧
    Iterator.minus ringABC 2 (-5) = some 2 := by
  decide

end Cursors

end DLR
